import Mathlib

/-! mysql-cdc-to-http: event normalisation, routing and checkpointing.

A shallow embedding of `src/main.go`.  Go values of type `interface{}` are
modelled by the inductive type `Value` (one constructor per dynamic type the
code distinguishes), Go maps by association lists, run-time panics by `none`,
and the effects of the handlers (records built, queue pushes, HTTP posts) by an
explicit trace.  Go strings are modelled as Lean strings, that is as text,
except for the log name of a position, which is kept as the sequence of bytes
that a Go string is, since the encoder of the checkpoint treats bytes that are
not UTF-8 in a way of their own.
Library routines that no statement below depends on are collected in `Lib` and
taken as parameters.
-/

namespace CDC

set_option exponentiation.threshold 4000

/-! ## Values and column metadata -/

/-- The Go integer types a dynamic value can have. -/
inductive IntKind
  | int | int8 | int16 | int32 | int64
  | uint | uint8 | uint16 | uint32 | uint64
  deriving DecidableEq, Repr

/-- A Go `interface{}` value as it occurs in a row: the dynamic type is the
constructor, the payload its value.  `nil` is the nil interface. -/
inductive Value
  | nil
  | bool (b : Bool)
  | integer (kind : IntKind) (v : Int)
  | float32 (bits : Nat)
  | float64 (bits : Nat)
  | str (s : String)
  | bytes (bs : List UInt8)
  | jsonNumber (s : String)
  | other (goType : String) (repr : String)
  deriving DecidableEq, Repr

/-- The column type codes of `schema` (`schema.TYPE_NUMBER`, ...). -/
inductive ColumnType
  | TYPE_NUMBER | TYPE_FLOAT | TYPE_ENUM | TYPE_SET | TYPE_STRING
  | TYPE_DATETIME | TYPE_TIMESTAMP | TYPE_DATE | TYPE_TIME | TYPE_BIT
  | TYPE_JSON | TYPE_DECIMAL | TYPE_MEDIUM_INT | TYPE_BINARY | TYPE_POINT
  deriving DecidableEq, Repr

/-- The fields of `schema.TableColumn` that the code reads. -/
structure TableColumn where
  Name : String
  Typ : ColumnType
  RawType : String
  deriving DecidableEq, Repr

/-- The fields of `schema.Table` that the code reads. -/
structure Table where
  Name : String
  Columns : List TableColumn
  deriving DecidableEq, Repr

/-- The fields of `canal.RowsEvent` that the code reads. -/
structure RowsEvent where
  Table : Table
  Action : String
  Rows : List (List Value)
  deriving DecidableEq, Repr

/-- `canal.InsertAction`. -/
def InsertAction : String := "insert"

/-- `canal.UpdateAction`. -/
def UpdateAction : String := "update"

/-- `canal.DeleteAction`. -/
def DeleteAction : String := "delete"

/-- A Go `map[string]interface{}`: an association list with distinct keys. -/
abbrev GoMap := List (String × Value)

/-- The assignment `m[k] = v`. -/
def GoMap.set (m : GoMap) (k : String) (v : Value) : GoMap :=
  (k, v) :: m.filter (fun p => p.1 != k)

/-- The lookup `m[k]` with its presence flag. -/
def GoMap.get? (m : GoMap) (k : String) : Option Value :=
  m.lookup k

/-- The payload built by `OnRow` (lines 80-86): `before` and `after` are maps
that may be nil, `table` is the entry `source.table`. -/
structure ChangeRecord where
  before : Option GoMap
  after : Option GoMap
  table : String
  deriving DecidableEq, Repr

/-- Library routines used by the handlers whose results are not modelled:
`base64Decode b` is `string(decoded)` for
`base64.StdEncoding.DecodeString(string(b))`, `none` on a decode error;
`bytesToString b` is the conversion `string(b)`; `sprintS v` is
`fmt.Sprintf("%s", v)` for a value that is not a string; `parseFloat s` is the
first result of `json.Number(s).Float64()`; `jsonMarshal p` is `json.Marshal`
of the payload, `none` on an encoding error. -/
structure Lib where
  base64Decode : List UInt8 → Option String
  bytesToString : List UInt8 → String
  sprintS : Value → String
  parseFloat : String → Nat
  jsonMarshal : ChangeRecord → Option String

/-! ## Column classification (lines 211-247) -/

def isTextType (typ : TableColumn) : Bool :=
  match typ.Typ with
  | .TYPE_STRING => true
  | _ => false

def isIntType (typ : TableColumn) : Bool :=
  typ.Typ == .TYPE_NUMBER || typ.Typ == .TYPE_MEDIUM_INT

def isFloatType (typ : TableColumn) : Bool :=
  typ.Typ == .TYPE_FLOAT || typ.Typ == .TYPE_DECIMAL

def isDateType (typ : TableColumn) : Bool :=
  typ.Typ == .TYPE_DATE

def isDateTimeType (typ : TableColumn) : Bool :=
  match typ.Typ with
  | .TYPE_DATETIME | .TYPE_TIMESTAMP => true
  | _ => false

def isBooleanType (typ : TableColumn) : Bool :=
  typ.Typ == .TYPE_NUMBER && typ.RawType == "tinyint(1)"

def isBitType (typ : TableColumn) : Bool :=
  typ.Typ == .TYPE_BIT

def getColumnNames (e : RowsEvent) : List String :=
  e.Table.Columns.map (fun col => col.Name)

/-! ## Library routines that the statements depend on -/

/-- The two failures of `strconv`: `ErrSyntax` and `ErrRange`. -/
inductive NumError
  | invalid
  | range
  deriving DecidableEq, Repr

/-- The test `'0' <= c && c <= '9'`. -/
def isDigitChar (c : Char) : Bool :=
  decide ('0' ≤ c) && decide (c ≤ '9')

/-- The digit value `c - '0'`. -/
def digitVal (c : Char) : Nat :=
  c.toNat - 48

/-- The number that a text of decimal digits denotes. -/
def decimalValue (ds : List Char) : Nat :=
  ds.foldl (fun n c => n * 10 + digitVal c) 0

/-- The loop of `strconv.ParseUint` for base 10: `cutoff` is the smallest
number with `cutoff * 10 > maxUint64`, `maxVal` the largest value of the bit
size.  A character that is not a decimal digit is a format error; an overflow
returns `maxVal` at once, without looking at the rest. -/
def parseUintLoop (maxVal : Nat) : List Char → Nat → Nat × Option NumError
  | [], n => (n, none)
  | c :: cs, n =>
    if isDigitChar c then
      if n ≥ (2 ^ 64 - 1) / 10 + 1 then (maxVal, some NumError.range)
      else
        let n1 := n * 10 + digitVal c
        if n1 > 2 ^ 64 - 1 ∨ n1 > maxVal then (maxVal, some NumError.range)
        else parseUintLoop maxVal cs n1
    else (0, some NumError.invalid)

/-- `strconv.ParseUint(s, 10, bitSize)`. -/
def ParseUint (s : List Char) (bitSize : Nat) : Nat × Option NumError :=
  if s = [] then (0, some NumError.invalid)
  else parseUintLoop (2 ^ bitSize - 1) s 0

/-- `strconv.ParseInt(s, 10, 64)`: an optional sign, then `ParseUint`; a
format error returns 0, a value out of range the nearest bound. -/
def ParseInt64 (s : List Char) : Int × Option NumError :=
  match s with
  | [] => (0, some NumError.invalid)
  | c :: cs =>
    let neg := c == '-'
    let body := if c == '+' || c == '-' then cs else c :: cs
    match ParseUint body 64 with
    | (_, some NumError.invalid) => (0, some NumError.invalid)
    | (un, _) =>
      if !neg && un ≥ 2 ^ 63 then ((2 : Int) ^ 63 - 1, some NumError.range)
      else if neg && un > 2 ^ 63 then (-(2 : Int) ^ 63, some NumError.range)
      else (if neg then -(un : Int) else (un : Int), none)

/-- The method `json.Number.Int64`: `strconv.ParseInt(string(n), 10, 64)`. -/
def Number_Int64 (num : String) : Int × Option NumError :=
  ParseInt64 num.data

/-- The character of a decimal digit. -/
def digitChar (d : Nat) : Char :=
  Char.ofNat (48 + d % 10)

/-- The decimal digits of `n`, most significant first, `fuel` bounding their
number. -/
def decimalDigits : Nat → Nat → List Char
  | 0, _ => []
  | fuel + 1, n => if n < 10 then [digitChar n] else decimalDigits fuel (n / 10) ++ [digitChar n]

/-- The decimal text of a natural number (`strconv.AppendUint(_, n, 10)`). -/
def formatUint (n : Nat) : List Char :=
  decimalDigits (n + 1) n

/-- `time.appendInt` for a non-negative `x`: the decimal digits of `x`, padded
with zeros on the left to `width` characters. -/
def appendInt (x : Nat) (width : Nat) : List Char :=
  if width = 2 ∧ x < 100 then [digitChar (x / 10), digitChar x]
  else if width = 4 ∧ x < 10000 then
    [digitChar (x / 1000), digitChar (x / 100), digitChar (x / 10), digitChar x]
  else
    let ds := formatUint x
    List.replicate (width - ds.length) '0' ++ ds

/-- `time.isLeap`. -/
def isLeap (year : Nat) : Bool :=
  year % 4 == 0 && (year % 100 != 0 || year % 400 == 0)

/-- The table `time.daysBefore`: the days of a non-leap year before the end of
month `m`. -/
def daysBefore : Nat → Nat
  | 0 => 0
  | 1 => 31
  | 2 => 31 + 28
  | 3 => 31 + 28 + 31
  | 4 => 31 + 28 + 31 + 30
  | 5 => 31 + 28 + 31 + 30 + 31
  | 6 => 31 + 28 + 31 + 30 + 31 + 30
  | 7 => 31 + 28 + 31 + 30 + 31 + 30 + 31
  | 8 => 31 + 28 + 31 + 30 + 31 + 30 + 31 + 31
  | 9 => 31 + 28 + 31 + 30 + 31 + 30 + 31 + 31 + 30
  | 10 => 31 + 28 + 31 + 30 + 31 + 30 + 31 + 31 + 30 + 31
  | 11 => 31 + 28 + 31 + 30 + 31 + 30 + 31 + 31 + 30 + 31 + 30
  | _ => 31 + 28 + 31 + 30 + 31 + 30 + 31 + 31 + 30 + 31 + 30 + 31

/-- `time.daysIn` for a month `1 ≤ m ≤ 12`. -/
def daysIn (m : Nat) (year : Nat) : Nat :=
  if m = 2 ∧ isLeap year then 29 else daysBefore m - daysBefore (m - 1)

/-- `time.getnum` with `fixed = true`: two decimal digits. -/
def getnum2 (s : List Char) : Option (Nat × List Char) :=
  match s with
  | a :: b :: rest =>
    if isDigitChar a && isDigitChar b then some (digitVal a * 10 + digitVal b, rest) else none
  | _ => none

/-- The literal text between two layout elements (`time.skip` on `"-"`). -/
def skipDash (s : List Char) : Option (List Char) :=
  match s with
  | c :: rest => if c = '-' then some rest else none
  | [] => none

/-- The year element `2006` of a layout: four characters, all decimal digits. -/
def getYear4 (s : List Char) : Option (Nat × List Char) :=
  match s with
  | a :: b :: c :: d :: rest =>
    if isDigitChar a && isDigitChar b && isDigitChar c && isDigitChar d then
      some (digitVal a * 1000 + digitVal b * 100 + digitVal c * 10 + digitVal d, rest)
    else none
  | _ => none

/-- `time.Parse("2006-01-02", value)`: year, month and day of the parsed time
(at midnight UTC), or `none` for an error.  The elements are read in layout
order; the month is checked on reading, the day once the text is used up. -/
def timeParseDate (value : List Char) : Option (Nat × Nat × Nat) :=
  match getYear4 value with
  | none => none
  | some (year, value) =>
    match skipDash value with
    | none => none
    | some value =>
      match getnum2 value with
      | none => none
      | some (month, value) =>
        if month ≤ 0 ∨ 12 < month then none
        else
          match skipDash value with
          | none => none
          | some value =>
            match getnum2 value with
            | none => none
            | some (day, value) =>
              if value ≠ [] then none
              else if day < 1 ∨ day > daysIn month year then none
              else some (year, month, day)

/-- `t.Format(time.RFC3339)` for the time at midnight UTC of a date: layout
`2006-01-02T15:04:05Z07:00`, the zone of UTC written `Z`. -/
def formatRFC3339 (year month day : Nat) : List Char :=
  appendInt year 4 ++ ['-'] ++ appendInt month 2 ++ ['-'] ++ appendInt day 2 ++ ['T'] ++
    appendInt 0 2 ++ [':'] ++ appendInt 0 2 ++ [':'] ++ appendInt 0 2 ++ ['Z']

/-- `fmt.Sprintf("%s", val)`: a string is printed as it is. -/
def sprintfS (lib : Lib) (val : Value) : String :=
  match val with
  | .str s => s
  | v => lib.sprintS v

/-! ## rowToMap (lines 125-209) -/

/-- The body of the loop of `rowToMap` for a value that is not nil and a column
with metadata (lines 136-197): the value stored in `result[col]`.  A comparison
`val == 1` of an interface value with an untyped constant holds exactly when
the dynamic type is `int` and the value 1. -/
def convertValue (lib : Lib) (column : TableColumn) (val : Value) : Value :=
  if isTextType column then
    match val with
    | .bytes strVal =>
      match lib.base64Decode strVal with
      | none => .str (lib.bytesToString strVal)
      | some decoded => .str decoded
    | _ => val
  else if isDateType column then
    let strVal := sprintfS lib val
    match timeParseDate strVal.data with
    | some (y, m, d) => .str (String.mk (formatRFC3339 y m d))
    | none => .str strVal
  else if isDateTimeType column then
    val
  else if isBooleanType column then
    if val == .integer .int 1 || val == .bool true then .bool true
    else if val == .integer .int 0 || val == .bool false then .bool false
    else .bool false
  else if isBitType column then
    match val with
    | .bytes v =>
      match v with
      | b :: _ => if b != 0 then .bool true else .bool false
      | [] => .bool false
    | .bool v => .bool v
    | _ => if val == .integer .int 1 then .bool true else .bool false
  else if isFloatType column then
    match val with
    | .jsonNumber num => .float64 (lib.parseFloat num)
    | _ => val
  else if isIntType column then
    match val with
    | .jsonNumber num => .integer .int64 (Number_Int64 num).1
    | _ => val
  else val

/-- The loop `for i, col := range columns` of `rowToMap`, from index `i` on;
`none` is the panic of `row[i]` with the index out of range. -/
def rowToMapLoop (lib : Lib) (e : RowsEvent) (row : List Value) :
    Nat → List String → GoMap → Option GoMap
  | _, [], result => some result
  | i, col :: rest, result =>
    match row[i]? with
    | none => none
    | some val =>
      if val = .nil then rowToMapLoop lib e row (i + 1) rest (result.set col .nil)
      else
        match e.Table.Columns[i]? with
        | some column =>
          rowToMapLoop lib e row (i + 1) rest (result.set col (convertValue lib column val))
        | none => rowToMapLoop lib e row (i + 1) rest (result.set col val)

def rowToMap (lib : Lib) (e : RowsEvent) (columns : List String) (row : List Value) :
    Option GoMap :=
  rowToMapLoop lib e row 0 columns []

/-! ## Process state -/

/-- The Redis server as seen through `redisClient`: when it is not reachable
every command fails; `kv` holds the string keys. -/
structure Redis where
  reachable : Bool
  kv : String → Option String

/-- The package-level variables and the stores they point to: `redisClient` is
`none` for the nil client, `files` maps a path to the content of a readable
file, `writable` tells whether `os.WriteFile` succeeds on a path. -/
structure World where
  positionFile : String
  postURL : String
  tableToGroup : String → Option String
  redisClient : Option Redis
  files : String → Option String
  writable : String → Bool

def redisPositionKey : String := "binlog_position"

def redisQueueKey : String := "cdc_events"

/-- `tableToGroup[table]`: a missing key gives the zero value `""`. -/
def getGroupForTable (w : World) (table : String) : String :=
  (w.tableToGroup table).getD ""

/-! ## OnRow (lines 50-117) -/

/-- What `OnRow` and the queue worker do to the outside, in order: `built` is
the construction of a payload (line 80), `rpush` the call of `RPush` on the
queue, `post` the call of `http.Post`. -/
inductive Effect
  | built (payload : ChangeRecord)
  | rpush (key : String) (data : String)
  | post (url : String) (body : String)
  deriving DecidableEq, Repr

/-- The result of a handler: its effects, and whether it ended in a panic
instead of returning. -/
structure Run where
  effects : List Effect
  panicked : Bool
  deriving DecidableEq, Repr

/-- Lines 80-113 for one pair `before`, `after`: the payload is built and
encoded; an encoding error skips the rest; otherwise the text is pushed on the
queue when there is a client, and posted to the group's URL in any case. -/
def deliver (lib : Lib) (w : World) (e : RowsEvent) (group : String)
    (before after : Option GoMap) : List Effect :=
  let payload : ChangeRecord := { before := before, after := after, table := e.Table.Name }
  match lib.jsonMarshal payload with
  | none => [Effect.built payload]
  | some jsonData =>
    let queued :=
      if w.redisClient.isSome then [Effect.rpush redisQueueKey jsonData] else []
    [Effect.built payload] ++ queued ++ [Effect.post (w.postURL ++ "/" ++ group) jsonData]

/-- The loop `for i := 0; i < len(e.Rows); i++` from index `i` on, `trace`
holding the effects so far.  Every iteration advances `i`, so `fuel` equal to
the number of rows is never used up. -/
def onRowLoop (lib : Lib) (w : World) (e : RowsEvent) (columnNames : List String)
    (group : String) : Nat → Nat → List Effect → Run
  | 0, _, trace => { effects := trace, panicked := false }
  | fuel + 1, i, trace =>
    if i < e.Rows.length then
      if e.Action == UpdateAction then
        match (e.Rows[i]?).bind (rowToMap lib e columnNames) with
        | none => { effects := trace, panicked := true }
        | some before =>
          let i := i + 1
          if i ≥ e.Rows.length then { effects := trace, panicked := false }
          else
            match (e.Rows[i]?).bind (rowToMap lib e columnNames) with
            | none => { effects := trace, panicked := true }
            | some after =>
              onRowLoop lib w e columnNames group fuel (i + 1)
                (trace ++ deliver lib w e group (some before) (some after))
      else
        match (e.Rows[i]?).bind (rowToMap lib e columnNames) with
        | none => { effects := trace, panicked := true }
        | some after =>
          onRowLoop lib w e columnNames group fuel (i + 1)
            (trace ++ deliver lib w e group none (some after))
    else { effects := trace, panicked := false }

def OnRow (lib : Lib) (w : World) (e : RowsEvent) : Run :=
  let group := getGroupForTable w e.Table.Name
  if group == "" then { effects := [], panicked := false }
  else if e.Action != InsertAction && e.Action != UpdateAction then
    { effects := [], panicked := false }
  else
    let columnNames := getColumnNames e
    onRowLoop lib w e columnNames group e.Rows.length 0 []

/-- The payloads built during a run, in order. -/
def recordsOf (effects : List Effect) : List ChangeRecord :=
  effects.filterMap (fun x => match x with
    | .built p => some p
    | _ => none)

/-- The HTTP posts of a run, in order. -/
def postsOf (effects : List Effect) : List (String × String) :=
  effects.filterMap (fun x => match x with
    | .post url body => some (url, body)
    | _ => none)

/-! ## encoding/json: reading -/

/-- A JSON text as a tree.  A number keeps its literal, a string is unquoted,
an object keeps its members in order (with repeated keys). -/
inductive Json
  | null
  | bool (b : Bool)
  | num (lit : String)
  | str (s : String)
  | arr (items : List Json)
  | obj (members : List (String × Json))

/-- The white space of JSON. -/
def isJsonSpace (c : Char) : Bool :=
  c == ' ' || c == '\t' || c == '\r' || c == '\n'

def skipWS : List Char → List Char
  | [] => []
  | c :: cs => if isJsonSpace c then skipWS cs else c :: cs

/-- The value of a hexadecimal digit of either case. -/
def hexVal (c : Char) : Option Nat :=
  if '0' ≤ c ∧ c ≤ '9' then some (c.toNat - 48)
  else if 'a' ≤ c ∧ c ≤ 'f' then some (c.toNat - 97 + 10)
  else if 'A' ≤ c ∧ c ≤ 'F' then some (c.toNat - 65 + 10)
  else none

/-- `json.getu4`: the code unit of a text that starts with a backslash, `u`
and four hexadecimal digits. -/
def getu4 (s : List Char) : Option Nat :=
  match s with
  | b :: u :: h1 :: h2 :: h3 :: h4 :: _ =>
    if b = '\\' ∧ u = 'u' then
      match hexVal h1, hexVal h2, hexVal h3, hexVal h4 with
      | some x1, some x2, some x3, some x4 => some (((x1 * 16 + x2) * 16 + x3) * 16 + x4)
      | _, _, _, _ => none
    else none
  | _ => none

/-- The character that a one-letter escape stands for. -/
def escapeChar (x : Char) : Option Char :=
  if x = '\"' then some '\"'
  else if x = '\\' then some '\\'
  else if x = '/' then some '/'
  else if x = 'b' then some (Char.ofNat 8)
  else if x = 'f' then some (Char.ofNat 12)
  else if x = 'n' then some '\n'
  else if x = 'r' then some '\r'
  else if x = 't' then some '\t'
  else none

/-- The outcome of one round of the reader of a string. -/
inductive UnquoteStep
  | fail
  | done (rest : List Char)
  | emit (c : Char) (rest : List Char)

/-- One round of `json.unquote` (together with the scanner's checks) on the
text of a string: the closing quote ends the string, an escape or a plain
character gives one character, a control character or an unknown escape is an
error.  A code unit of a surrogate pair is combined with its partner, a lone one
becomes U+FFFD. -/
def unquoteStep (s : List Char) : UnquoteStep :=
  match s with
  | [] => UnquoteStep.fail
  | c :: rest =>
    if c = '\"' then UnquoteStep.done rest
    else if c = '\\' then
      match rest with
      | [] => UnquoteStep.fail
      | x :: rest2 =>
        if x = 'u' then
          match getu4 (c :: x :: rest2) with
          | none => UnquoteStep.fail
          | some rr =>
            let rest3 := rest2.drop 4
            if 0xD800 ≤ rr ∧ rr < 0xE000 then
              match getu4 rest3 with
              | some rr1 =>
                if rr < 0xDC00 ∧ 0xDC00 ≤ rr1 ∧ rr1 < 0xE000 then
                  UnquoteStep.emit (Char.ofNat ((rr - 0xD800) * 1024 + (rr1 - 0xDC00) + 0x10000))
                    (rest3.drop 6)
                else UnquoteStep.emit (Char.ofNat 0xFFFD) rest3
              | none => UnquoteStep.emit (Char.ofNat 0xFFFD) rest3
            else UnquoteStep.emit (Char.ofNat rr) rest3
        else
          match escapeChar x with
          | some c1 => UnquoteStep.emit c1 rest2
          | none => UnquoteStep.fail
    else if c.toNat < 0x20 then UnquoteStep.fail
    else UnquoteStep.emit c rest

/-- The text of a JSON string from after its opening quote: the unquoted
characters and the input after the closing quote.  Each round uses up a
character, so `fuel` equal to the length of the input is never used up. -/
def unquoteLoop : Nat → List Char → List Char → Option (List Char × List Char)
  | 0, _, _ => none
  | fuel + 1, s, acc =>
    match unquoteStep s with
    | UnquoteStep.fail => none
    | UnquoteStep.done rest => some (acc, rest)
    | UnquoteStep.emit c rest => unquoteLoop fuel rest (acc ++ [c])

def unquote (s : List Char) : Option (List Char × List Char) :=
  unquoteLoop s.length s []

/-- The fraction of a number: nothing, or a point and at least one digit. -/
def parseFrac (s : List Char) : Option (List Char × List Char) :=
  match s with
  | c :: r =>
    if c = '.' then
      let ds := r.span isDigitChar
      if ds.1 = [] then none else some (c :: ds.1, ds.2)
    else some ([], s)
  | [] => some ([], s)

/-- The exponent of a number: nothing, or `e` or `E`, an optional sign and at
least one digit. -/
def parseExp (s : List Char) : Option (List Char × List Char) :=
  match s with
  | c :: r =>
    if c = 'e' ∨ c = 'E' then
      let sign : List Char × List Char :=
        match r with
        | x :: r2 => if x = '+' ∨ x = '-' then ([x], r2) else ([], r)
        | [] => ([], r)
      let ds := sign.2.span isDigitChar
      if ds.1 = [] then none else some (c :: sign.1 ++ ds.1, ds.2)
    else some ([], s)
  | [] => some ([], s)

/-- The integer part of a number: `0`, or a digit from 1 to 9 and more digits. -/
def parseIntPart (s : List Char) : Option (List Char × List Char) :=
  match s with
  | c :: r =>
    if c = '0' then some ([c], r)
    else if isDigitChar c then
      let ds := r.span isDigitChar
      some (c :: ds.1, ds.2)
    else none
  | [] => none

/-- A JSON number: its literal and the input after it. -/
def parseNumber (s : List Char) : Option (List Char × List Char) :=
  let sign : List Char × List Char :=
    match s with
    | c :: r => if c = '-' then ([c], r) else ([], s)
    | [] => ([], s)
  match parseIntPart sign.2 with
  | none => none
  | some (ip, r1) =>
    match parseFrac r1 with
    | none => none
    | some (fp, r2) =>
      match parseExp r2 with
      | none => none
      | some (ep, r3) => some (sign.1 ++ ip ++ fp ++ ep, r3)

/-- The input after the literal `lit`, when the input starts with it. -/
def dropLit : List Char → List Char → Option (List Char)
  | [], s => some s
  | _ :: _, [] => none
  | l :: ls, c :: cs => if l = c then dropLit ls cs else none

/-- A value that is neither an object nor an array, `c` being its first
character: a string, one of the literals `true`, `false` and `null`, or a
number. -/
def parseScalar (c : Char) (rest : List Char) : Option (Json × List Char) :=
  if c = '\"' then
    match unquote rest with
    | some (text, r) => some (Json.str (String.mk text), r)
    | none => none
  else if c = 't' then (dropLit "rue".data rest).map (fun r => (Json.bool true, r))
  else if c = 'f' then (dropLit "alse".data rest).map (fun r => (Json.bool false, r))
  else if c = 'n' then (dropLit "ull".data rest).map (fun r => (Json.null, r))
  else
    match parseNumber (c :: rest) with
    | some (lit, r) => some (Json.num (String.mk lit), r)
    | none => none

/-- The largest nesting of arrays and objects that the scanner accepts. -/
def maxNestingDepth : Nat := 10000

mutual

/-- A JSON value at nesting `depth`, and the input after it.  Every call uses
up a character before the next one, so `fuel` above the length of the input is
never used up. -/
def parseValue : Nat → Nat → List Char → Option (Json × List Char)
  | 0, _, _ => none
  | fuel + 1, depth, s =>
    match skipWS s with
    | [] => none
    | c :: rest =>
      if c = '\x7b' then
        if depth + 1 > maxNestingDepth then none
        else
          match skipWS rest with
          | [] => none
          | c2 :: rest2 =>
            if c2 = '\x7d' then some (Json.obj [], rest2)
            else parseMembers fuel (depth + 1) (c2 :: rest2) []
      else if c = '[' then
        if depth + 1 > maxNestingDepth then none
        else
          match skipWS rest with
          | [] => none
          | c2 :: rest2 =>
            if c2 = ']' then some (Json.arr [], rest2)
            else parseElements fuel (depth + 1) (c2 :: rest2) []
      else parseScalar c rest

/-- The members of an object from a key on, `acc` holding the members read. -/
def parseMembers :
    Nat → Nat → List Char → List (String × Json) → Option (Json × List Char)
  | 0, _, _, _ => none
  | fuel + 1, depth, s, acc =>
    match skipWS s with
    | [] => none
    | c :: rest =>
      if c = '\"' then
        match unquote rest with
        | none => none
        | some (key, r1) =>
          match skipWS r1 with
          | [] => none
          | c1 :: r2 =>
            if c1 = ':' then
              match parseValue fuel depth r2 with
              | none => none
              | some (v, r3) =>
                match skipWS r3 with
                | [] => none
                | c3 :: r4 =>
                  if c3 = ',' then parseMembers fuel depth r4 (acc ++ [(String.mk key, v)])
                  else if c3 = '\x7d' then some (Json.obj (acc ++ [(String.mk key, v)]), r4)
                  else none
            else none
      else none

/-- The elements of an array from a value on, `acc` holding the elements read. -/
def parseElements : Nat → Nat → List Char → List Json → Option (Json × List Char)
  | 0, _, _, _ => none
  | fuel + 1, depth, s, acc =>
    match parseValue fuel depth s with
    | none => none
    | some (v, r1) =>
      match skipWS r1 with
      | [] => none
      | c :: r2 =>
        if c = ',' then parseElements fuel depth r2 (acc ++ [v])
        else if c = ']' then some (Json.arr (acc ++ [v]), r2)
        else none

end

/-- The syntax check and the reading of a whole JSON text: one value with
white space around it; `none` is a `SyntaxError`. -/
def parseJSON (data : List Char) : Option Json :=
  match parseValue (data.length + 1) 0 data with
  | some (v, rest) => if skipWS rest = [] then some v else none
  | none => none

/-- The index expression `m[k]` of a map read from an object: of repeated keys
the last one counts. -/
def mapIndex (m : List (String × Json)) (k : String) : Option Json :=
  m.reverse.lookup k

/-- The exponent that `strconv.ParseFloat` reads from the digits after `e`: it
is built digit by digit and grows no more once it has reached 10000. -/
def exponentValue (ds : List Char) : Nat :=
  ds.foldl (fun e c => if e < 10000 then e * 10 + digitVal c else e) 0

/-- Whether `strconv.ParseFloat(lit, 64)` returns a range error for the JSON
number `lit`.  With `D` the number that the digits of the integer part and of
the fraction denote together, `f` the number of digits of the fraction and `x`
the exponent read, the number converted is `D * 10 ^ (x - f)` up to its sign.
The conversion rounds to the nearest float64, ties to even, and fails when the
result is infinite, that is from `2 ^ 1024 - 2 ^ 970` on: half a unit in the
last place above the largest float64, `2 ^ 1024 - 2 ^ 971`.  A number too small
for a float64 is rounded to zero without an error. -/
def numberOverflowsFloat64 (lit : List Char) : Bool :=
  let body :=
    match lit with
    | c :: r => if c = '-' then r else lit
    | [] => lit
  let ip := body.span isDigitChar
  let fp : List Char × List Char :=
    match ip.2 with
    | c :: r => if c = '.' then r.span isDigitChar else ([], ip.2)
    | [] => ([], [])
  let x : Int :=
    match fp.2 with
    | c :: r =>
      if c = 'e' ∨ c = 'E' then
        match r with
        | sign :: r2 =>
          if sign = '-' then -(exponentValue (r2.span isDigitChar).1 : Int)
          else if sign = '+' then (exponentValue (r2.span isDigitChar).1 : Int)
          else (exponentValue (r.span isDigitChar).1 : Int)
        | [] => 0
      else 0
    | [] => 0
  let D := decimalValue (ip.1 ++ fp.1)
  let E : Int := x - (fp.1.length : Int)
  if 0 ≤ E then decide (2 ^ 1024 - 2 ^ 970 ≤ D * 10 ^ E.toNat)
  else decide ((2 ^ 1024 - 2 ^ 970) * 10 ^ (-E).toNat ≤ D)

mutual

/-- Whether the decoding of a value into an `interface{}` saves an error: a
number becomes a float64, and one out of the range of a float64 is an
`UnmarshalTypeError`; the decoding goes on, so a number anywhere inside the
value counts. -/
def Json.overflows : Json → Bool
  | Json.num lit => numberOverflowsFloat64 lit.data
  | Json.arr items => anyOverflows items
  | Json.obj members => anyMemberOverflows members
  | _ => false

def anyOverflows : List Json → Bool
  | [] => false
  | v :: vs => v.overflows || anyOverflows vs

def anyMemberOverflows : List (String × Json) → Bool
  | [] => false
  | kv :: ms => kv.2.overflows || anyMemberOverflows ms

end

/-- `json.Unmarshal(data, &payload)` for a nil `payload` of type
`map[string]interface{}`: `none` is an error.  An object gives its members,
unless one of its values holds a number out of the range of a float64, which is
an `UnmarshalTypeError`; the text `null` leaves the map nil (no entries); any
other value is an `UnmarshalTypeError`. -/
def jsonUnmarshalMap (data : String) : Option (List (String × Json)) :=
  match parseJSON data.data with
  | some (Json.obj members) => if anyMemberOverflows members then none else some members
  | some Json.null => some []
  | _ => none

/-! ## The queue worker (lines 383-430) -/

/-- Lines 421-430; `none` is the panic of a type assertion that does not hold:
`payload["source"]` has to be an object and `source["table"]` a string. -/
def extractTableNameFromPayload (data : String) : Option String :=
  match jsonUnmarshalMap data with
  | none => some "unknown_table"
  | some payload =>
    match mapIndex payload "source" with
    | some (Json.obj source) =>
      match mapIndex source "table" with
      | some (Json.str table) => some table
      | _ => none
    | _ => none

/-- One round of the loop of `startRedisQueueWorker`, `pop` being the outcome
of `BLPop` (`none` for an error).  A round that ends in `continue` returns with
the effects it had; a panic ends the worker. -/
def workerIteration (w : World) (pop : Option (List String)) : Run :=
  if w.redisClient.isNone then { effects := [], panicked := false }
  else
    match pop with
    | none => { effects := [], panicked := false }
    | some result =>
      if result.length < 2 then { effects := [], panicked := false }
      else
        match result[1]? with
        | none => { effects := [], panicked := true }
        | some data =>
          match extractTableNameFromPayload data with
          | none => { effects := [], panicked := true }
          | some tableName =>
            let group := getGroupForTable w tableName
            if group == "" then { effects := [], panicked := false }
            else { effects := [Effect.post (w.postURL ++ "/" ++ group) data], panicked := false }

/-! ## The checkpoint (lines 41-44 and 257-306) -/

/-- A Go string as it is: a sequence of bytes, which need not be the UTF-8
encoding of a text. -/
abbrev GoString := List UInt8

/-- The UTF-8 encoding of a character (`utf8.AppendRune`). -/
def utf8EncodeChar (c : Char) : List UInt8 :=
  let n := c.toNat
  if n < 0x80 then [UInt8.ofNat n]
  else if n < 0x800 then [UInt8.ofNat (0xC0 + n / 64), UInt8.ofNat (0x80 + n % 64)]
  else if n < 0x10000 then
    [UInt8.ofNat (0xE0 + n / 4096), UInt8.ofNat (0x80 + n / 64 % 64), UInt8.ofNat (0x80 + n % 64)]
  else
    [UInt8.ofNat (0xF0 + n / 262144), UInt8.ofNat (0x80 + n / 4096 % 64),
      UInt8.ofNat (0x80 + n / 64 % 64), UInt8.ofNat (0x80 + n % 64)]

/-- The Go string that holds a text: its UTF-8 encoding. -/
def goString (s : String) : GoString :=
  s.data.flatMap utf8EncodeChar

/-- `utf8.DecodeRuneInString(s)` for an `s` that is not empty: the character
at the start of `s` and the bytes after it; `none` is the result
`(RuneError, 1)` for bytes that do not start with the encoding of a character.
The first byte gives the length of the encoding and the range of the second
byte (the table `acceptRanges`, which leaves out the encodings that are longer
than needed, the surrogates and the values above `0x10FFFF`); the later bytes
lie between `0x80` and `0xBF`. -/
def decodeRune (s : List UInt8) : Option (Char × List UInt8) :=
  match s with
  | [] => none
  | s0 :: r0 =>
    let b0 := s0.toNat
    if b0 < 0x80 then some (Char.ofNat b0, r0)
    else if b0 < 0xC2 ∨ 0xF4 < b0 then none
    else
      let lo := if b0 = 0xE0 then 0xA0 else if b0 = 0xF0 then 0x90 else 0x80
      let hi := if b0 = 0xED then 0x9F else if b0 = 0xF4 then 0x8F else 0xBF
      match r0 with
      | [] => none
      | s1 :: r1 =>
        let b1 := s1.toNat
        if b1 < lo ∨ hi < b1 then none
        else if b0 < 0xE0 then some (Char.ofNat (b0 % 32 * 64 + b1 % 64), r1)
        else
          match r1 with
          | [] => none
          | s2 :: r2 =>
            let b2 := s2.toNat
            if b2 < 0x80 ∨ 0xBF < b2 then none
            else if b0 < 0xF0 then
              some (Char.ofNat (b0 % 16 * 4096 + b1 % 64 * 64 + b2 % 64), r2)
            else
              match r2 with
              | [] => none
              | s3 :: r3 =>
                let b3 := s3.toNat
                if b3 < 0x80 ∨ 0xBF < b3 then none
                else
                  some (Char.ofNat
                    (b0 % 8 * 262144 + b1 % 64 * 4096 + b2 % 64 * 64 + b3 % 64), r3)

/-- The struct `BinlogPosition` (lines 41-44); `Pos` is a `uint32`. -/
structure BinlogPosition where
  Name : GoString
  Pos : Nat
  deriving DecidableEq, Repr

/-- `mysql.Position`: a log name and an offset of type `uint32`. -/
structure Position where
  Name : GoString
  Pos : Nat
  deriving DecidableEq, Repr

/-- The digit `"0123456789abcdef"[n]`. -/
def hexDigit (n : Nat) : Char :=
  if n < 10 then Char.ofNat (48 + n) else Char.ofNat (87 + n)

/-- The table `htmlSafeSet` of the encoder: the ASCII characters written
without an escape. -/
def htmlSafe (c : Char) : Bool :=
  decide (0x20 ≤ c.toNat) && c != '\"' && c != '&' && c != '<' && c != '>' && c != '\\'

/-- The encoding of one character of a string by `json.Marshal`: the bytes
that encode the character are copied (they are the character again in the text
written), unless the character has an escape. -/
def quoteChar (c : Char) : List Char :=
  if c.toNat < 0x80 then
    if htmlSafe c then [c]
    else if c = '\\' ∨ c = '\"' then ['\\', c]
    else if c = Char.ofNat 8 then ['\\', 'b']
    else if c = Char.ofNat 12 then ['\\', 'f']
    else if c = '\n' then ['\\', 'n']
    else if c = '\r' then ['\\', 'r']
    else if c = '\t' then ['\\', 't']
    else ['\\', 'u', '0', '0', hexDigit (c.toNat / 16), hexDigit (c.toNat % 16)]
  else if c = Char.ofNat 0x2028 ∨ c = Char.ofNat 0x2029 then
    ['\\', 'u', '2', '0', '2', hexDigit (c.toNat % 16)]
  else [c]

/-- The loop of the encoder over the bytes of a string (`appendString`): a
byte below `0x80` is a character of its own; otherwise the character at the
start of the bytes is decoded, and a byte that starts no character is written
as the escape of U+FFFD and passed over alone.  Every round passes over a byte
at least, so `fuel` equal to the number of bytes is never used up. -/
def quoteBytes : Nat → List UInt8 → List Char
  | 0, _ => []
  | _ + 1, [] => []
  | fuel + 1, b :: rest =>
    if b.toNat < 0x80 then quoteChar (Char.ofNat b.toNat) ++ quoteBytes fuel rest
    else
      match decodeRune (b :: rest) with
      | none => ['\\', 'u', 'f', 'f', 'f', 'd'] ++ quoteBytes fuel rest
      | some (c, after) => quoteChar c ++ quoteBytes fuel after

/-- The encoding of a string by `json.Marshal`. -/
def quoteString (s : GoString) : List Char :=
  ['\"'] ++ quoteBytes s.length s ++ ['\"']

/-- `json.Marshal` of a `BinlogPosition`: an object with the fields `name` and
`pos` in the order of their declaration. -/
def marshalPosition (p : BinlogPosition) : String :=
  String.mk ("\x7b\"name\":".data ++ quoteString p.Name ++ ",\"pos\":".data ++
    formatUint p.Pos ++ "\x7d".data)

/-- The folding of a character in a key (`json.foldName`): the least member of
its case orbit, which for the Latin letters is the capital. -/
def foldChar (c : Char) : Char :=
  if 'a' ≤ c ∧ c ≤ 'z' then Char.ofNat (c.toNat - 32)
  else if c = Char.ofNat 0x17F then 'S'
  else if c = Char.ofNat 0x212A then 'K'
  else c

def foldName (key : String) : List Char :=
  key.data.map foldChar

/-- The decoding of one member of an object into a `BinlogPosition`; the flag
is the saved error.  A key stands for the field whose name it is up to case; a
`null` leaves the field as it is; a value of another type than the field's, or
a number that is not a `uint32`, is an `UnmarshalTypeError`, which is saved
while the decoding goes on.  The name read is a text, and the field holds its
bytes. -/
def decodeMember (st : BinlogPosition × Bool) (kv : String × Json) : BinlogPosition × Bool :=
  if foldName kv.1 = "NAME".data then
    match kv.2 with
    | Json.null => st
    | Json.str s => ({ st.1 with Name := goString s }, st.2)
    | _ => (st.1, true)
  else if foldName kv.1 = "POS".data then
    match kv.2 with
    | Json.null => st
    | Json.num lit =>
      match ParseUint lit.data 64 with
      | (n, none) => if n < 2 ^ 32 then ({ st.1 with Pos := n }, st.2) else (st.1, true)
      | _ => (st.1, true)
    | _ => (st.1, true)
  else st

/-- `json.Unmarshal(data, &pos)`: the value of `pos` afterwards and whether an
error is returned.  A text that is not JSON, or a value that is neither an
object nor `null`, is an error and leaves `pos` as it is. -/
def jsonUnmarshalPosition (data : String) (pos : BinlogPosition) : BinlogPosition × Bool :=
  match parseJSON data.data with
  | some (Json.obj members) => members.foldl decodeMember (pos, false)
  | some Json.null => (pos, false)
  | _ => (pos, true)

/-- The command `GET key`: `none` is an error, among them `redis.Nil` for a key
that is not there. -/
def redisGet (r : Redis) (key : String) : Option String :=
  if r.reachable then r.kv key else none

/-- The command `SET key value`, which fails on a server that is not reachable. -/
def redisSet (r : Redis) (key value : String) : Redis :=
  if r.reachable then { r with kv := fun k => if k = key then some value else r.kv k } else r

/-- Lines 257-285: the position and the error returned.  `fast` is the outcome
of lines 260-272: a position returned from Redis, or the variable `pos` with
which the file is read. -/
def loadPosition (w : World) : Position × Option String :=
  let pos : BinlogPosition := { Name := goString "", Pos := 0 }
  let fast : Position ⊕ BinlogPosition :=
    match w.redisClient with
    | some r =>
      match redisGet r redisPositionKey with
      | some data =>
        match jsonUnmarshalPosition data pos with
        | (pos, false) => Sum.inl { Name := pos.Name, Pos := pos.Pos }
        | (pos, true) => Sum.inr pos
      | none => Sum.inr pos
    | none => Sum.inr pos
  match fast with
  | Sum.inl p => (p, none)
  | Sum.inr pos =>
    match w.files w.positionFile with
    | none => ({ Name := goString "", Pos := 4 }, none)
    | some fileData =>
      match jsonUnmarshalPosition fileData pos with
      | (_, true) => ({ Name := goString "", Pos := 4 }, none)
      | (pos, false) => ({ Name := pos.Name, Pos := pos.Pos }, none)

/-- Lines 287-306: the stores after the call.  A file that has been written is
read back with the text written. -/
def savePosition (w : World) (pos : Position) : World :=
  let posData : BinlogPosition := { Name := pos.Name, Pos := pos.Pos }
  let jsonData := marshalPosition posData
  let w1 : World :=
    match w.redisClient with
    | some r => { w with redisClient := some (redisSet r redisPositionKey jsonData) }
    | none => w
  if w1.writable w1.positionFile then
    { w1 with files := fun path => if path = w1.positionFile then some jsonData else w1.files path }
  else w1

/-! ## Auxiliary definitions for the statements -/

/-- The value that the loop of `rowToMap` stores for the value `val` at index `i`. -/
def cellValue (lib : Lib) (e : RowsEvent) (i : Nat) (val : Value) : Value :=
  if val = .nil then .nil
  else
    match e.Table.Columns[i]? with
    | some column => convertValue lib column val
    | none => val

/-- The consecutive pairs of a list; a last element without a partner is left
out. -/
def pairUp {α : Type} : List α → List (α × α)
  | a :: b :: rest => (a, b) :: pairUp rest
  | _ => []

/-- The token `s` is a decimal integer literal (an optional sign and at least
one digit) that denotes `v`, and `v` is in the signed 64-bit range. -/
def IsInt64Literal (s : String) (v : Int) : Prop :=
  ∃ sign ds, s.data = sign ++ ds ∧ (sign = [] ∨ sign = ['+'] ∨ sign = ['-']) ∧ ds ≠ [] ∧
    (∀ c ∈ ds, isDigitChar c = true) ∧
    v = (if sign = ['-'] then -(decimalValue ds : Int) else (decimalValue ds : Int)) ∧
    -(2 : Int) ^ 63 ≤ v ∧ v < (2 : Int) ^ 63

/-- The Go string `s` is valid UTF-8: it is the encoding of a text. -/
def ValidUTF8 (s : GoString) : Prop :=
  ∃ t : String, s = goString t

/-- The number of days of month `m` of year `y` in the Gregorian calendar. -/
def daysInMonth (y m : Nat) : Nat :=
  if m = 2 then
    if (y % 4 = 0 ∧ y % 100 ≠ 0) ∨ y % 400 = 0 then 29 else 28
  else if m = 4 ∨ m = 6 ∨ m = 9 ∨ m = 11 then 30
  else 31

/-- The two decimal digits of a number below 100. -/
def pad2 (n : Nat) : List Char :=
  [digitChar (n / 10), digitChar n]

/-- The four decimal digits of a number below 10000. -/
def pad4 (n : Nat) : List Char :=
  [digitChar (n / 1000), digitChar (n / 100), digitChar (n / 10), digitChar n]

/-- The text `s` is a calendar date in the form `YYYY-MM-DD`: a year of four
digits, a month from 01 to 12 and a day from 01 to the number of days of that
month. -/
def IsCalendarDate (s : String) : Prop :=
  ∃ y m d : Nat, y ≤ 9999 ∧ 1 ≤ m ∧ m ≤ 12 ∧ 1 ≤ d ∧ d ≤ daysInMonth y m ∧
    s.data = pad4 y ++ '-' :: (pad2 m ++ '-' :: pad2 d)

/-! ## Concrete inputs -/

/-- Whether the encoder of the concrete inputs takes a value: like
`json.Marshal` it refuses a float that is not finite (all bits of the exponent
set), and it refuses every value of a type that is not modelled. -/
def sampleEncodable (v : Value) : Bool :=
  match v with
  | Value.float64 bits => bits / 2 ^ 52 % 2 ^ 11 != 2 ^ 11 - 1
  | Value.float32 bits => bits / 2 ^ 23 % 2 ^ 8 != 2 ^ 8 - 1
  | Value.other _ _ => false
  | _ => true

/-- Library routines for the concrete inputs: no text is valid base64, and the
encoder fails on a payload that holds a value which is not encodable and
returns a fixed text for any other payload. -/
def sampleLib : Lib where
  base64Decode := fun _ => none
  bytesToString := fun _ => ""
  sprintS := fun _ => ""
  parseFloat := fun _ => 0
  jsonMarshal := fun p =>
    if ((p.before.getD []).all (fun kv => sampleEncodable kv.2) &&
        (p.after.getD []).all (fun kv => sampleEncodable kv.2)) then some "null"
    else none

/-- A process that monitors the table `users` in the group `accounts`, without
Redis. -/
def sampleWorld : World where
  positionFile := "./storage/binlog_position.json"
  postURL := "http://localhost:8080"
  tableToGroup := fun table => if table = "users" then some "accounts" else none
  redisClient := none
  files := fun _ => none
  writable := fun _ => true

/-- The process of `sampleWorld` with a reachable, empty Redis. -/
def sampleWorldRedis : World :=
  { sampleWorld with redisClient := some { reachable := true, kv := fun _ => none } }

/-- The table `users` with an integer, a boolean, a bit and a date column. -/
def sampleTable : Table where
  Name := "users"
  Columns :=
    [{ Name := "id", Typ := ColumnType.TYPE_NUMBER, RawType := "int(11)" },
     { Name := "active", Typ := ColumnType.TYPE_NUMBER, RawType := "tinyint(1)" },
     { Name := "flag", Typ := ColumnType.TYPE_BIT, RawType := "bit(1)" },
     { Name := "born", Typ := ColumnType.TYPE_DATE, RawType := "date" }]

/-- A row of `sampleTable` the way the log source delivers it. -/
def sampleRow : List Value :=
  [Value.integer IntKind.int32 7, Value.integer IntKind.int8 1, Value.bytes [1],
    Value.str "2023-07-01"]

/-- A second row of `sampleTable`. -/
def sampleRow2 : List Value :=
  [Value.integer IntKind.int32 7, Value.integer IntKind.int8 0, Value.bytes [0, 0],
    Value.str "not-a-date"]

/-- An update event with three rows: a pair and a row without a partner. -/
def sampleUpdate : RowsEvent where
  Table := sampleTable
  Action := UpdateAction
  Rows := [sampleRow, sampleRow2, sampleRow]

/-- An insert event with two rows. -/
def sampleInsert : RowsEvent where
  Table := sampleTable
  Action := InsertAction
  Rows := [sampleRow, sampleRow2]

/-- An update event of two rows whose second row holds one value for the four
columns of the table. -/
def sampleShortUpdate : RowsEvent where
  Table := sampleTable
  Action := UpdateAction
  Rows := [sampleRow, [Value.integer IntKind.int32 7]]

/-- An update event of three rows whose last row, the one without a partner,
holds no value. -/
def sampleShortTrailing : RowsEvent where
  Table := sampleTable
  Action := UpdateAction
  Rows := [sampleRow, sampleRow2, []]

/-- An insert event of one row, which holds one value for the four columns of
the table. -/
def sampleShortInsert : RowsEvent where
  Table := sampleTable
  Action := InsertAction
  Rows := [[Value.integer IntKind.int32 7]]

/-- An insert event of the table `orders`, which `sampleWorld` does not route. -/
def sampleUnrouted : RowsEvent where
  Table := { Name := "orders", Columns := [] }
  Action := InsertAction
  Rows := [[]]

/-- A queue item for the table `orders`. -/
def sampleItem : String :=
  "\x7b\"after\":\x7b\"id\":7\x7d,\"before\":null,\"source\":\x7b\"table\":\"orders\"\x7d\x7d"

/-- An insert event whose integer column holds a numeric token that is not an
integer literal. -/
def sampleTokenEvent : RowsEvent where
  Table :=
    { Name := "users",
      Columns := [{ Name := "id", Typ := ColumnType.TYPE_NUMBER, RawType := "int(11)" }] }
  Action := InsertAction
  Rows := [[Value.jsonNumber "1.5"]]

/-- The log name `bin\xff.000003`: the byte `0xff` starts no character. -/
def sampleBadName : GoString :=
  [0x62, 0x69, 0x6e, 0xff, 0x2e, 0x30, 0x30, 0x30, 0x30, 0x30, 0x33]

/-- A process whose Redis holds a text that is not JSON under the position key
and whose position file holds an offset that is not a `uint32`. -/
def sampleWorldUndecodable : World :=
  { sampleWorld with
    redisClient := some
      { reachable := true,
        kv := fun key => if key = redisPositionKey then some "not json" else none },
    files := fun path =>
      if path = "./storage/binlog_position.json" then
        some "\x7b\"name\":\"bin.000003\",\"pos\":-1\x7d"
      else none }

/-! # Properties -/

/-! ## rowToMap -/

theorem GoMap.get?_set (m : GoMap) (k k' : String) (v : Value) :
    (m.set k v).get? k' = if k' = k then some v else m.get? k' := by
  unfold GoMap.set GoMap.get?
  by_cases h : k' = k
  · subst h; simp [List.lookup]
  · have hne : (k' == k) = false := by simpa using h
    simp only [List.lookup, hne, h, if_false]
    induction m with
    | nil => rfl
    | cons p m ih =>
      by_cases hp : p.1 = k
      · have : (p.1 != k) = false := by simp [hp]
        rw [List.filter_cons_of_neg (by simp [hp])]
        rw [ih]
        obtain ⟨a, b⟩ := p
        simp only at hp
        subst hp
        simp [List.lookup, hne]
      · rw [List.filter_cons_of_pos (by simpa using hp)]
        obtain ⟨a, b⟩ := p
        simp only [List.lookup]
        rw [ih]

theorem rowToMapLoop_cons (lib : Lib) (e : RowsEvent) (row : List Value) (i : Nat)
    (col : String) (rest : List String) (result : GoMap) (val : Value)
    (hval : row[i]? = some val) :
    rowToMapLoop lib e row i (col :: rest) result =
      rowToMapLoop lib e row (i + 1) rest (result.set col (cellValue lib e i val)) := by
  rw [rowToMapLoop, hval]
  simp only [cellValue]
  by_cases hnil : val = .nil
  · simp [hnil]
  · simp only [hnil, if_false]
    cases e.Table.Columns[i]? <;> rfl

theorem rowToMapLoop_spec (lib : Lib) (e : RowsEvent) (row : List Value) :
    ∀ (cols : List String) (i : Nat) (result : GoMap), cols.Nodup →
      i + cols.length ≤ row.length →
      ∃ m, rowToMapLoop lib e row i cols result = some m ∧
        (∀ k, k ∉ cols → m.get? k = result.get? k) ∧
        (∀ j val, j < cols.length → row[i + j]? = some val →
          ∀ c, cols[j]? = some c → m.get? c = some (cellValue lib e (i + j) val)) := by
  intro cols
  induction cols with
  | nil =>
    intro i result _ _
    exact ⟨result, rfl, fun _ _ => rfl, fun j _ hj => absurd hj (by simp)⟩
  | cons col rest ih =>
    intro i result hnd hlen
    have hi : i < row.length := by simp at hlen; omega
    obtain ⟨hcol, hrest⟩ := List.nodup_cons.mp hnd
    have hval : row[i]? = some row[i] := List.getElem?_eq_getElem hi
    rw [rowToMapLoop_cons lib e row i col rest result _ hval]
    obtain ⟨m, hm, hother, hin⟩ := ih (i + 1) (result.set col (cellValue lib e i row[i])) hrest
      (by simp at hlen; omega)
    refine ⟨m, hm, ?_, ?_⟩
    · intro k hk
      have hk1 : k ≠ col := fun h => hk (by simp [h])
      have hk2 : k ∉ rest := fun h => hk (by simp [h])
      rw [hother k hk2, GoMap.get?_set, if_neg hk1]
    · intro j val hj hv c hc
      cases j with
      | zero =>
        simp at hc
        subst hc
        simp at hv
        have hrv : row[i] = val := by
          rw [hval] at hv
          exact Option.some.inj hv
        rw [hother _ hcol, GoMap.get?_set, if_pos rfl, hrv]
        rfl
      | succ j =>
        simp at hc
        have := hin j val (by simpa using hj) (by rw [← hv]; congr 1; omega) c hc
        rw [this]
        congr 2
        omega

/-- The map that `rowToMap` returns for a row that has a value for every column:
under a column's name it holds the converted value. -/
theorem rowToMap_get (lib : Lib) (e : RowsEvent) (row : List Value) (i : Nat)
    (column : TableColumn) (val : Value)
    (hcol : e.Table.Columns[i]? = some column) (hval : row[i]? = some val)
    (hnil : val ≠ .nil)
    (hlen : e.Table.Columns.length ≤ row.length)
    (hnd : (getColumnNames e).Nodup) :
    ∃ m, rowToMap lib e (getColumnNames e) row = some m ∧
      m.get? column.Name = some (convertValue lib column val) := by
  obtain ⟨m, hm, -, hin⟩ := rowToMapLoop_spec lib e row (getColumnNames e) 0 [] hnd
    (by simpa [getColumnNames] using hlen)
  refine ⟨m, hm, ?_⟩
  have hi : i < e.Table.Columns.length := by
    by_contra h
    rw [List.getElem?_eq_none (by omega)] at hcol
    exact absurd hcol (by simp)
  have := hin i val (by simpa [getColumnNames] using hi) (by simpa using hval) column.Name
    (by simp [getColumnNames, hcol])
  rw [this]
  simp [cellValue, hnil, hcol]

theorem rowToMap_isSome (lib : Lib) (e : RowsEvent) (row : List Value)
    (hlen : e.Table.Columns.length ≤ row.length) :
    ∃ m, rowToMap lib e (getColumnNames e) row = some m := by
  have key : ∀ (cols : List String) (i : Nat) (result : GoMap), i + cols.length ≤ row.length →
      ∃ m, rowToMapLoop lib e row i cols result = some m := by
    intro cols
    induction cols with
    | nil => intro i result _; exact ⟨result, rfl⟩
    | cons col rest ih =>
      intro i result h
      have hi : i < row.length := by simp at h; omega
      rw [rowToMapLoop_cons lib e row i col rest result _ (List.getElem?_eq_getElem hi)]
      exact ih _ _ (by simp at h; omega)
  exact key _ 0 [] (by simpa [getColumnNames] using hlen)

/-! ## OnRow -/

theorem length_pairUp {α : Type} : ∀ l : List α, (pairUp l).length = l.length / 2
  | [] => by simp [pairUp]
  | [_] => by simp [pairUp]
  | a :: b :: rest => by
    rw [pairUp, List.length_cons, length_pairUp rest]
    simp only [List.length_cons]
    omega

theorem getElem?_pairUp {α : Type} : ∀ (l : List α) (k : Nat) (a b : α),
    l[2 * k]? = some a → l[2 * k + 1]? = some b → (pairUp l)[k]? = some (a, b)
  | [], k, a, b, h, _ => by simp at h
  | [_], k, a, b, _, h => by simp at h
  | x :: y :: rest, 0, a, b, h1, h2 => by
    simp at h1 h2
    simp [pairUp, h1, h2]
  | x :: y :: rest, k + 1, a, b, h1, h2 => by
    have e1 : 2 * (k + 1) = 2 * k + 1 + 1 := by omega
    have e2 : 2 * (k + 1) + 1 = 2 * k + 1 + 1 + 1 := by omega
    rw [e1] at h1
    rw [e2] at h2
    simp only [List.getElem?_cons_succ] at h1 h2
    simp only [pairUp, List.getElem?_cons_succ]
    exact getElem?_pairUp rest k a b h1 h2

theorem recordsOf_append (xs ys : List Effect) :
    recordsOf (xs ++ ys) = recordsOf xs ++ recordsOf ys := by
  simp [recordsOf, List.filterMap_append]

theorem postsOf_append (xs ys : List Effect) :
    postsOf (xs ++ ys) = postsOf xs ++ postsOf ys := by
  simp [postsOf, List.filterMap_append]

theorem recordsOf_deliver (lib : Lib) (w : World) (e : RowsEvent) (group : String)
    (before after : Option GoMap) :
    recordsOf (deliver lib w e group before after) =
      [{ before := before, after := after, table := e.Table.Name }] := by
  simp only [deliver]
  split
  · simp [recordsOf]
  · cases w.redisClient <;> simp [recordsOf]

theorem postsOf_deliver (lib : Lib) (w : World) (e : RowsEvent) (group : String)
    (before after : Option GoMap) (body : String)
    (hbody : lib.jsonMarshal { before := before, after := after, table := e.Table.Name } =
      some body) :
    postsOf (deliver lib w e group before after) = [(w.postURL ++ "/" ++ group, body)] := by
  simp only [deliver, hbody]
  cases w.redisClient <;> simp [postsOf]

theorem onRowLoop_update (lib : Lib) (w : World) (e : RowsEvent) (group : String)
    (hact : e.Action = UpdateAction)
    (hrows : ∀ row ∈ e.Rows, e.Table.Columns.length ≤ row.length) :
    ∀ (fuel i : Nat) (trace : List Effect), e.Rows.length ≤ fuel + i →
      onRowLoop lib w e (getColumnNames e) group fuel i trace =
        { effects := trace ++ (pairUp (e.Rows.drop i)).flatMap (fun p =>
            deliver lib w e group (rowToMap lib e (getColumnNames e) p.1)
              (rowToMap lib e (getColumnNames e) p.2)),
          panicked := false } := by
  intro fuel
  induction fuel with
  | zero =>
    intro i trace h
    have : e.Rows.drop i = [] := List.drop_eq_nil_of_le (by omega)
    simp [onRowLoop, this, pairUp]
  | succ fuel ih =>
    intro i trace h
    rw [onRowLoop]
    by_cases hi : i < e.Rows.length
    · have hupd : (e.Action == UpdateAction) = true := by simp [hact]
      have h1 : e.Rows[i]? = some e.Rows[i] := List.getElem?_eq_getElem hi
      obtain ⟨before, hb⟩ := rowToMap_isSome lib e e.Rows[i]
        (hrows _ (List.getElem_mem hi))
      simp only [hi, if_true, hupd, h1, Option.some_bind, hb]
      by_cases hi2 : i + 1 < e.Rows.length
      · have h2 : e.Rows[i + 1]? = some e.Rows[i + 1] := List.getElem?_eq_getElem hi2
        obtain ⟨after, ha⟩ := rowToMap_isSome lib e e.Rows[i + 1]
          (hrows _ (List.getElem_mem hi2))
        have hge : ¬ (i + 1 ≥ e.Rows.length) := by omega
        simp only [hge, if_false, h2, Option.some_bind, ha]
        rw [ih (i + 1 + 1) _ (by omega)]
        have hd : e.Rows.drop i = e.Rows[i] :: e.Rows[i + 1] :: e.Rows.drop (i + 1 + 1) := by
          rw [List.drop_eq_getElem_cons hi, List.drop_eq_getElem_cons hi2]
        rw [hd]
        simp [pairUp, hb, ha]
      · have hge : i + 1 ≥ e.Rows.length := by omega
        have hd : e.Rows.drop i = [e.Rows[i]] := by
          rw [List.drop_eq_getElem_cons hi, List.drop_eq_nil_of_le (by omega)]
        simp [hge, hd, pairUp]
    · have : e.Rows.drop i = [] := List.drop_eq_nil_of_le (by omega)
      simp [hi, this, pairUp]

theorem onRowLoop_insert (lib : Lib) (w : World) (e : RowsEvent) (group : String)
    (hact : e.Action = InsertAction)
    (hrows : ∀ row ∈ e.Rows, e.Table.Columns.length ≤ row.length) :
    ∀ (fuel i : Nat) (trace : List Effect), e.Rows.length ≤ fuel + i →
      onRowLoop lib w e (getColumnNames e) group fuel i trace =
        { effects := trace ++ (e.Rows.drop i).flatMap (fun row =>
            deliver lib w e group none (rowToMap lib e (getColumnNames e) row)),
          panicked := false } := by
  intro fuel
  induction fuel with
  | zero =>
    intro i trace h
    have : e.Rows.drop i = [] := List.drop_eq_nil_of_le (by omega)
    simp [onRowLoop, this]
  | succ fuel ih =>
    intro i trace h
    rw [onRowLoop]
    by_cases hi : i < e.Rows.length
    · have hupd : (e.Action == UpdateAction) = false := by
        rw [hact]; decide
      have h1 : e.Rows[i]? = some e.Rows[i] := List.getElem?_eq_getElem hi
      obtain ⟨after, ha⟩ := rowToMap_isSome lib e e.Rows[i]
        (hrows _ (List.getElem_mem hi))
      simp only [hi, if_true, hupd, h1, Option.some_bind, ha]
      rw [ih (i + 1) _ (by omega), List.drop_eq_getElem_cons hi, List.flatMap_cons, ha,
        List.append_assoc]
      simp
    · have : e.Rows.drop i = [] := List.drop_eq_nil_of_le (by omega)
      simp [hi, this]

theorem recordsOf_flatMap_deliver {α : Type} (lib : Lib) (w : World) (e : RowsEvent)
    (group : String) (fb fa : α → Option GoMap) (l : List α) :
    recordsOf (l.flatMap (fun p => deliver lib w e group (fb p) (fa p))) =
      l.map (fun p => { before := fb p, after := fa p, table := e.Table.Name }) := by
  induction l with
  | nil => rfl
  | cons p l ih => rw [List.flatMap_cons, recordsOf_append, recordsOf_deliver, ih]; rfl

theorem postsOf_flatMap_deliver {α : Type} (lib : Lib) (w : World) (e : RowsEvent)
    (group : String) (fb fa : α → Option GoMap) (l : List α)
    (henc : ∀ p ∈ l,
      lib.jsonMarshal { before := fb p, after := fa p, table := e.Table.Name } ≠ none) :
    postsOf (l.flatMap (fun p => deliver lib w e group (fb p) (fa p))) =
      l.map (fun p => (w.postURL ++ "/" ++ group,
        (lib.jsonMarshal { before := fb p, after := fa p, table := e.Table.Name }).getD "")) := by
  induction l with
  | nil => rfl
  | cons p l ih =>
    obtain ⟨body, hbody⟩ := Option.ne_none_iff_exists'.mp (henc p (List.mem_cons_self p l))
    rw [List.flatMap_cons, postsOf_append, postsOf_deliver lib w e group _ _ body hbody,
      ih (fun q hq => henc q (List.mem_cons_of_mem p hq))]
    simp [hbody]

theorem mem_pairUp {α : Type} : ∀ (l : List α) (p : α × α), p ∈ pairUp l →
    ∃ k, l[2 * k]? = some p.1 ∧ l[2 * k + 1]? = some p.2
  | [], p, h => by simp [pairUp] at h
  | [_], p, h => by simp [pairUp] at h
  | x :: y :: rest, p, h => by
    simp only [pairUp, List.mem_cons] at h
    rcases h with h | h
    · exact ⟨0, by simp [h], by simp [h]⟩
    · obtain ⟨k, h1, h2⟩ := mem_pairUp rest p h
      refine ⟨k + 1, ?_, ?_⟩
      · have e1 : 2 * (k + 1) = 2 * k + 1 + 1 := by omega
        rw [e1]
        simpa only [List.getElem?_cons_succ] using h1
      · have e2 : 2 * (k + 1) + 1 = 2 * k + 1 + 1 + 1 := by omega
        rw [e2]
        simpa only [List.getElem?_cons_succ] using h2

theorem mem_of_getElem?_some {α : Type} {l : List α} {i : Nat} {a : α} (h : l[i]? = some a) :
    a ∈ l := by
  obtain ⟨hi, ha⟩ := List.getElem?_eq_some.mp h
  exact ha ▸ List.getElem_mem hi

theorem OnRow_eq_loop (lib : Lib) (w : World) (e : RowsEvent)
    (hact : e.Action = UpdateAction ∨ e.Action = InsertAction)
    (hgroup : getGroupForTable w e.Table.Name ≠ "") :
    OnRow lib w e =
      onRowLoop lib w e (getColumnNames e) (getGroupForTable w e.Table.Name) e.Rows.length 0
        [] := by
  have h1 : (getGroupForTable w e.Table.Name == "") = false := by simpa using hgroup
  have h2 : (e.Action != InsertAction && e.Action != UpdateAction) = false := by
    rcases hact with h | h <;> simp [h]
  simp only [OnRow, h1, h2]
  rfl

/-- C1, the claim as stated fails: an update event on the monitored table `users` with
two rows, the second of which holds one value for the four columns.  The claim
asks for one record; `rowToMap` panics at `row[1]` of the short row, so `OnRow`
builds no record and does not return, whatever the encoder does.  With a short
row in the last place, the one without a partner, the record of the pair is
built and `OnRow` panics all the same. -/
theorem update_short_row_panics :
    getGroupForTable sampleWorld sampleShortUpdate.Table.Name = "accounts" ∧
    sampleShortUpdate.Action = UpdateAction ∧
    sampleShortUpdate.Rows.length = 2 * 1 ∧
    (∀ lib : Lib, OnRow lib sampleWorld sampleShortUpdate = { effects := [], panicked := true }) ∧
    (∀ lib : Lib, (recordsOf (OnRow lib sampleWorld sampleShortUpdate).effects).length ≠ 1) ∧
    sampleShortTrailing.Rows.length = 2 * 1 + 1 ∧
    (OnRow sampleLib sampleWorld sampleShortTrailing).panicked = true ∧
    (recordsOf (OnRow sampleLib sampleWorld sampleShortTrailing).effects).length = 1 :=
  ⟨by decide, rfl, rfl, fun _ => rfl,
    fun lib => by rw [show OnRow lib sampleWorld sampleShortUpdate = ⟨[], true⟩ from rfl]; decide,
    rfl, by decide, by decide⟩

/-- C1 as amended: an update event on a monitored table whose rows have a value
for every column and whose own payloads can be encoded: with `2 * N` or
`2 * N + 1` rows `OnRow` returns after building exactly `N` records, the `k`-th
with `before = rowToMap(row 2k)` and `after = rowToMap(row 2k+1)`, each of them
posted; a last row without a partner gives no record. -/
theorem OnRow_update_pairs (lib : Lib) (w : World) (e : RowsEvent) (N : Nat)
    (hact : e.Action = UpdateAction)
    (hgroup : getGroupForTable w e.Table.Name ≠ "")
    (hrows : ∀ row ∈ e.Rows, e.Table.Columns.length ≤ row.length)
    (henc : ∀ (k : Nat) (r1 r2 : List Value) (before after : GoMap),
      e.Rows[2 * k]? = some r1 → e.Rows[2 * k + 1]? = some r2 →
      rowToMap lib e (getColumnNames e) r1 = some before →
      rowToMap lib e (getColumnNames e) r2 = some after →
      lib.jsonMarshal { before := some before, after := some after, table := e.Table.Name } ≠
        none)
    (hlen : e.Rows.length = 2 * N ∨ e.Rows.length = 2 * N + 1) :
    (OnRow lib w e).panicked = false ∧
    (recordsOf (OnRow lib w e).effects).length = N ∧
    (postsOf (OnRow lib w e).effects).length = N ∧
    ∀ k, k < N → ∃ r1 r2 before after body,
      e.Rows[2 * k]? = some r1 ∧ e.Rows[2 * k + 1]? = some r2 ∧
      rowToMap lib e (getColumnNames e) r1 = some before ∧
      rowToMap lib e (getColumnNames e) r2 = some after ∧
      (recordsOf (OnRow lib w e).effects)[k]? =
        some { before := some before, after := some after, table := e.Table.Name } ∧
      lib.jsonMarshal { before := some before, after := some after, table := e.Table.Name } =
        some body ∧
      (postsOf (OnRow lib w e).effects)[k]? =
        some (w.postURL ++ "/" ++ getGroupForTable w e.Table.Name, body) := by
  rw [OnRow_eq_loop lib w e (Or.inl hact) hgroup,
    onRowLoop_update lib w e _ hact hrows _ 0 [] (by omega)]
  simp only [List.drop_zero, List.nil_append]
  have hrec := recordsOf_flatMap_deliver lib w e (getGroupForTable w e.Table.Name)
    (fun p : List Value × List Value => rowToMap lib e (getColumnNames e) p.1)
    (fun p => rowToMap lib e (getColumnNames e) p.2) (pairUp e.Rows)
  have hpost := postsOf_flatMap_deliver lib w e (getGroupForTable w e.Table.Name)
    (fun p : List Value × List Value => rowToMap lib e (getColumnNames e) p.1)
    (fun p => rowToMap lib e (getColumnNames e) p.2) (pairUp e.Rows) (by
      intro p hp
      obtain ⟨k, h1, h2⟩ := mem_pairUp e.Rows p hp
      obtain ⟨before, hb⟩ := rowToMap_isSome lib e p.1
        (hrows _ (mem_of_getElem?_some h1))
      obtain ⟨after, ha⟩ := rowToMap_isSome lib e p.2
        (hrows _ (mem_of_getElem?_some h2))
      simp only [hb, ha]
      exact henc k p.1 p.2 before after h1 h2 hb ha)
  beta_reduce at hrec hpost
  rw [hrec, hpost]
  have hN : e.Rows.length / 2 = N := by omega
  refine ⟨trivial, by rw [List.length_map, length_pairUp, hN],
    by rw [List.length_map, length_pairUp, hN], ?_⟩
  intro k hk
  have hk1 : 2 * k < e.Rows.length := by omega
  have hk2 : 2 * k + 1 < e.Rows.length := by omega
  obtain ⟨before, hb⟩ := rowToMap_isSome lib e e.Rows[2 * k] (hrows _ (List.getElem_mem hk1))
  obtain ⟨after, ha⟩ := rowToMap_isSome lib e e.Rows[2 * k + 1]
    (hrows _ (List.getElem_mem hk2))
  obtain ⟨body, hbody⟩ := Option.ne_none_iff_exists'.mp
    (henc k _ _ before after (List.getElem?_eq_getElem hk1) (List.getElem?_eq_getElem hk2)
      hb ha)
  have hp := getElem?_pairUp e.Rows k _ _ (List.getElem?_eq_getElem hk1)
    (List.getElem?_eq_getElem hk2)
  refine ⟨e.Rows[2 * k], e.Rows[2 * k + 1], before, after, body,
    List.getElem?_eq_getElem hk1, List.getElem?_eq_getElem hk2, hb, ha, ?_, hbody, ?_⟩
  · rw [List.getElem?_map, hp]
    simp [hb, ha]
  · rw [List.getElem?_map, hp]
    simp [hb, ha, hbody]

/-- C2, the claim as stated fails: an insert event on the monitored table `users` with
one row, which holds one value for the four columns.  The claim asks for one
record; `rowToMap` panics at `row[1]`, so `OnRow` builds no record and does not
return, whatever the encoder does. -/
theorem insert_short_row_panics :
    getGroupForTable sampleWorld sampleShortInsert.Table.Name = "accounts" ∧
    sampleShortInsert.Action = InsertAction ∧
    sampleShortInsert.Rows.length = 1 ∧
    (∀ lib : Lib, OnRow lib sampleWorld sampleShortInsert = { effects := [], panicked := true }) ∧
    (∀ lib : Lib, (recordsOf (OnRow lib sampleWorld sampleShortInsert).effects).length ≠ 1) :=
  ⟨by decide, rfl, rfl, fun _ => rfl,
    fun lib => by rw [show OnRow lib sampleWorld sampleShortInsert = ⟨[], true⟩ from rfl]; decide⟩

/-- C2 as amended: an insert event with `N` rows on a monitored table whose rows
have a value for every column and whose own payloads can be encoded: `OnRow`
returns after building exactly `N` records in row order, the `i`-th with
`before = nil` and `after = rowToMap(row i)`, each of them posted. -/
theorem OnRow_insert_records (lib : Lib) (w : World) (e : RowsEvent) (N : Nat)
    (hact : e.Action = InsertAction)
    (hgroup : getGroupForTable w e.Table.Name ≠ "")
    (hrows : ∀ row ∈ e.Rows, e.Table.Columns.length ≤ row.length)
    (henc : ∀ (i : Nat) (row : List Value) (after : GoMap), e.Rows[i]? = some row →
      rowToMap lib e (getColumnNames e) row = some after →
      lib.jsonMarshal { before := none, after := some after, table := e.Table.Name } ≠ none)
    (hlen : e.Rows.length = N) :
    (OnRow lib w e).panicked = false ∧
    (recordsOf (OnRow lib w e).effects).length = N ∧
    (postsOf (OnRow lib w e).effects).length = N ∧
    ∀ i, i < N → ∃ row after body,
      e.Rows[i]? = some row ∧
      rowToMap lib e (getColumnNames e) row = some after ∧
      (recordsOf (OnRow lib w e).effects)[i]? =
        some { before := none, after := some after, table := e.Table.Name } ∧
      lib.jsonMarshal { before := none, after := some after, table := e.Table.Name } =
        some body ∧
      (postsOf (OnRow lib w e).effects)[i]? =
        some (w.postURL ++ "/" ++ getGroupForTable w e.Table.Name, body) := by
  rw [OnRow_eq_loop lib w e (Or.inr hact) hgroup,
    onRowLoop_insert lib w e _ hact hrows _ 0 [] (by omega)]
  simp only [List.drop_zero, List.nil_append]
  have hrec := recordsOf_flatMap_deliver lib w e (getGroupForTable w e.Table.Name)
    (fun _ : List Value => none) (fun row => rowToMap lib e (getColumnNames e) row) e.Rows
  have hpost := postsOf_flatMap_deliver lib w e (getGroupForTable w e.Table.Name)
    (fun _ : List Value => none) (fun row => rowToMap lib e (getColumnNames e) row) e.Rows (by
      intro row hrow
      obtain ⟨i, hi, hget⟩ := List.getElem_of_mem hrow
      obtain ⟨after, ha⟩ := rowToMap_isSome lib e row (hrows _ hrow)
      simp only [ha]
      exact henc i row after (by rw [List.getElem?_eq_getElem hi, hget]) ha)
  beta_reduce at hrec hpost
  rw [hrec, hpost]
  refine ⟨trivial, by rw [List.length_map, hlen], by rw [List.length_map, hlen], ?_⟩
  intro i hi
  have hi1 : i < e.Rows.length := by omega
  obtain ⟨after, ha⟩ := rowToMap_isSome lib e e.Rows[i] (hrows _ (List.getElem_mem hi1))
  obtain ⟨body, hbody⟩ := Option.ne_none_iff_exists'.mp
    (henc i _ after (List.getElem?_eq_getElem hi1) ha)
  refine ⟨e.Rows[i], after, body, List.getElem?_eq_getElem hi1, ha, ?_, hbody, ?_⟩
  · rw [List.getElem?_map, List.getElem?_eq_getElem hi1]
    simp [ha]
  · rw [List.getElem?_map, List.getElem?_eq_getElem hi1]
    simp [ha, hbody]

/-- The encoder of the concrete inputs fails on a payload that holds a float
which is not a number. -/
theorem sampleLib_encoder_fails :
    sampleLib.jsonMarshal
      { before := none, after := some [("ratio", Value.float64 0x7FF8000000000000)],
        table := "users" } = none := by
  decide

/-- Witness for C1 as amended: an update event with three rows gives one record; the
encoder is one that fails on other payloads. -/
theorem OnRow_update_pairs_witness :
    sampleUpdate.Rows.length = 2 * 1 + 1 ∧
    (OnRow sampleLib sampleWorld sampleUpdate).panicked = false ∧
    (recordsOf (OnRow sampleLib sampleWorld sampleUpdate).effects).length = 1 ∧
    (postsOf (OnRow sampleLib sampleWorld sampleUpdate).effects).length = 1 :=
  have h := OnRow_update_pairs sampleLib sampleWorld sampleUpdate 1 rfl (by decide) (by decide)
    (by
      intro k r1 r2 before after h1 h2 hb ha
      match k with
      | 0 =>
        have e1 : r1 = sampleRow := by simpa [sampleUpdate] using h1.symm
        have e2 : r2 = sampleRow2 := by simpa [sampleUpdate] using h2.symm
        subst e1 e2
        have eb : some before = rowToMap sampleLib sampleUpdate (getColumnNames sampleUpdate)
            sampleRow := hb.symm
        have ea : some after = rowToMap sampleLib sampleUpdate (getColumnNames sampleUpdate)
            sampleRow2 := ha.symm
        rw [show rowToMap sampleLib sampleUpdate (getColumnNames sampleUpdate) sampleRow =
          some _ from rfl] at eb
        rw [show rowToMap sampleLib sampleUpdate (getColumnNames sampleUpdate) sampleRow2 =
          some _ from rfl] at ea
        cases eb
        cases ea
        decide
      | k + 1 =>
        have : sampleUpdate.Rows[2 * (k + 1) + 1]? = none := by
          apply List.getElem?_eq_none
          simp [sampleUpdate]
        rw [this] at h2
        cases h2)
    (Or.inr rfl)
  ⟨rfl, h.1, h.2.1, h.2.2.1⟩

/-- Witness for C2 as amended: an insert event with two rows gives two records; the
encoder is one that fails on other payloads. -/
theorem OnRow_insert_records_witness :
    sampleInsert.Rows.length = 2 ∧
    (OnRow sampleLib sampleWorld sampleInsert).panicked = false ∧
    (recordsOf (OnRow sampleLib sampleWorld sampleInsert).effects).length = 2 ∧
    (postsOf (OnRow sampleLib sampleWorld sampleInsert).effects).length = 2 :=
  have h := OnRow_insert_records sampleLib sampleWorld sampleInsert 2 rfl (by decide) (by decide)
    (by
      intro i row after h1 ha
      have ea : some after = rowToMap sampleLib sampleInsert (getColumnNames sampleInsert) row :=
        ha.symm
      match i with
      | 0 =>
        have e1 : row = sampleRow := by simpa [sampleInsert] using h1.symm
        subst e1
        rw [show rowToMap sampleLib sampleInsert (getColumnNames sampleInsert) sampleRow =
          some _ from rfl] at ea
        cases ea
        decide
      | 1 =>
        have e1 : row = sampleRow2 := by simpa [sampleInsert] using h1.symm
        subst e1
        rw [show rowToMap sampleLib sampleInsert (getColumnNames sampleInsert) sampleRow2 =
          some _ from rfl] at ea
        cases ea
        decide
      | i + 2 =>
        have : sampleInsert.Rows[i + 2]? = none := by
          apply List.getElem?_eq_none
          simp [sampleInsert]
        rw [this] at h1
        cases h1)
    rfl
  ⟨rfl, h.1, h.2.1, h.2.2.1⟩

/-! ## Routing -/

/-- C9: a table without a routing entry causes no delivery.  For an event of
such a table `OnRow` returns with no effect at all (nothing is queued, nothing
is posted); for a queue item whose table name, as the worker extracts it, has no
routing entry, the round of the worker returns with no effect. -/
theorem unrouted_table_no_delivery (lib : Lib) (w : World) (e : RowsEvent)
    (result : List String) (data tableName : String)
    (hevent : w.tableToGroup e.Table.Name = none)
    (hdata : result[1]? = some data)
    (htable : extractTableNameFromPayload data = some tableName)
    (hitem : w.tableToGroup tableName = none) :
    OnRow lib w e = { effects := [], panicked := false } ∧
    workerIteration w (some result) = { effects := [], panicked := false } := by
  constructor
  · simp [OnRow, getGroupForTable, hevent]
  · unfold workerIteration
    split
    · rfl
    · simp only [hdata, htable, getGroupForTable, hitem]
      split <;> rfl

/-- Witness for C9: the table `orders` has no routing entry. -/
theorem unrouted_table_no_delivery_witness :
    sampleWorldRedis.tableToGroup "orders" = none ∧
    extractTableNameFromPayload sampleItem = some "orders" ∧
    OnRow sampleLib sampleWorldRedis sampleUnrouted = { effects := [], panicked := false } ∧
    workerIteration sampleWorldRedis (some [redisQueueKey, sampleItem]) =
      { effects := [], panicked := false } :=
  have h := unrouted_table_no_delivery sampleLib sampleWorldRedis sampleUnrouted
    [redisQueueKey, sampleItem] sampleItem "orders" (by decide) rfl (by decide) (by decide)
  ⟨by decide, by decide, h.1, h.2⟩

/-- A number out of the range of a float64 makes `json.Unmarshal` return an
error although the text is well-formed, so the worker takes the item for one of
`unknown_table`, whatever its source table is; the largest float64 and a number
too small for a float64 are read without an error. -/
theorem extractTableName_number_out_of_range :
    extractTableNameFromPayload
      "\x7b\"source\":\x7b\"table\":\"t\"\x7d,\"n\":1e999\x7d" = some "unknown_table" ∧
    extractTableNameFromPayload
      "\x7b\"source\":\x7b\"table\":\"t\"\x7d,\"n\":[-1.7976931348623159e308]\x7d" =
      some "unknown_table" ∧
    extractTableNameFromPayload "\x7b\"n\":1e999\x7d" = some "unknown_table" ∧
    extractTableNameFromPayload
      "\x7b\"source\":\x7b\"table\":\"t\"\x7d,\"n\":1.7976931348623158e308\x7d" = some "t" ∧
    extractTableNameFromPayload
      "\x7b\"source\":\x7b\"table\":\"t\"\x7d,\"n\":1e-999\x7d" = some "t" := by
  decide

/-- C10: queue items that are well-formed JSON but carry no source object, or
no table name of type string, make `extractTableNameFromPayload` panic instead
of returning `unknown_table`, and the panic ends the worker. -/
theorem extractTableName_panics_without_source :
    extractTableNameFromPayload "\x7b\x7d" = none ∧
    extractTableNameFromPayload "null" = none ∧
    extractTableNameFromPayload "\x7b\"source\":null\x7d" = none ∧
    extractTableNameFromPayload "\x7b\"source\":\x7b\x7d\x7d" = none ∧
    extractTableNameFromPayload "\x7b\"source\":\x7b\"table\":5\x7d\x7d" = none ∧
    extractTableNameFromPayload "not json" = some "unknown_table" ∧
    workerIteration sampleWorldRedis (some [redisQueueKey, "\x7b\x7d"]) =
      { effects := [], panicked := true } := by
  decide

/-- C6: on a column of raw type `tinyint(1)` the value 1 gives `false` when its
dynamic type is not `int`: so for `int8`, the type in which the log source
delivers a `tinyint`, and for `uint8` and `int64`.  Only the `int` 1 and `true`
give `true`. -/
theorem boolean_column_one_is_false (lib : Lib) :
    convertValue lib { Name := "active", Typ := ColumnType.TYPE_NUMBER, RawType := "tinyint(1)" }
      (Value.integer IntKind.int8 1) = Value.bool false ∧
    rowToMap lib sampleInsert (getColumnNames sampleInsert) sampleRow =
      some [("born", Value.str "2023-07-01T00:00:00Z"), ("flag", Value.bool true),
        ("active", Value.bool false), ("id", Value.integer IntKind.int32 7)] ∧
    (∀ kind, kind ≠ IntKind.int →
      convertValue lib { Name := "active", Typ := ColumnType.TYPE_NUMBER, RawType := "tinyint(1)" }
        (Value.integer kind 1) = Value.bool false) ∧
    convertValue lib { Name := "active", Typ := ColumnType.TYPE_NUMBER, RawType := "tinyint(1)" }
      (Value.integer IntKind.int 1) = Value.bool true := by
  refine ⟨rfl, rfl, ?_, rfl⟩
  intro kind hk
  cases kind <;> first | exact absurd rfl hk | rfl

/-! ## Column coercions -/

/-- C8: for a BIT column and a byte-array value `rowToMap` returns (there is no
indexing failure) and yields a boolean that is true exactly when the array has
a first byte and that byte is not zero; so an array of zeros, and the empty
array, yield false. -/
theorem rowToMap_bit_bytes (lib : Lib) (e : RowsEvent) (row : List Value) (i : Nat)
    (column : TableColumn) (bs : List UInt8)
    (hcol : e.Table.Columns[i]? = some column) (hbit : isBitType column = true)
    (hval : row[i]? = some (Value.bytes bs))
    (hlen : e.Table.Columns.length ≤ row.length)
    (hnd : (getColumnNames e).Nodup) :
    ∃ m v, rowToMap lib e (getColumnNames e) row = some m ∧
      m.get? column.Name = some (Value.bool v) ∧
      (v = true ↔ ∃ b rest, bs = b :: rest ∧ b ≠ 0) ∧
      ((∀ b ∈ bs, b = 0) → v = false) := by
  obtain ⟨m, hm, hget⟩ := rowToMap_get lib e row i column _ hcol hval (by simp) hlen hnd
  have hT : column.Typ = ColumnType.TYPE_BIT := by simpa [isBitType] using hbit
  have hconv : convertValue lib column (Value.bytes bs) =
      Value.bool (match bs with
        | b :: _ => b != 0
        | [] => false) := by
    delta convertValue
    simp only [isTextType, isDateType, isDateTimeType, isBooleanType, isBitType, hT]
    cases bs with
    | nil => rfl
    | cons b rest => by_cases hb : b = 0 <;> simp [hb]
  rw [hconv] at hget
  refine ⟨m, _, hm, hget, ?_, ?_⟩
  · cases bs with
    | nil => simp
    | cons b rest => simp
  · intro hz
    cases bs with
    | nil => rfl
    | cons b rest => simp [hz b (by simp)]

/-- Witness for C8: the BIT column of the sample table, with the arrays `[1]`
of the first and `[0, 0]` of the second sample row. -/
theorem rowToMap_bit_bytes_witness :
    (∃ m v, rowToMap sampleLib sampleInsert (getColumnNames sampleInsert) sampleRow = some m ∧
      m.get? "flag" = some (Value.bool v) ∧
      (v = true ↔ ∃ b rest, [(1 : UInt8)] = b :: rest ∧ b ≠ 0) ∧
      ((∀ b ∈ [(1 : UInt8)], b = 0) → v = false)) ∧
    ∃ m, rowToMap sampleLib sampleInsert (getColumnNames sampleInsert) sampleRow2 = some m ∧
      m.get? "flag" = some (Value.bool false) :=
  ⟨rowToMap_bit_bytes sampleLib sampleInsert sampleRow 2
    { Name := "flag", Typ := ColumnType.TYPE_BIT, RawType := "bit(1)" } [1] rfl rfl rfl
    (by decide) (by decide), ⟨_, rfl, by decide⟩⟩

theorem parseUintLoop_error (maxVal : Nat) : ∀ (s : List Char) (n x : Nat) (err : NumError),
    parseUintLoop maxVal s n = (x, some err) →
      (err = NumError.invalid ∧ x = 0) ∨ (err = NumError.range ∧ x = maxVal) := by
  intro s
  induction s with
  | nil => intro n x err h; simp [parseUintLoop] at h
  | cons c cs ih =>
    intro n x err h
    rw [parseUintLoop] at h
    split at h
    · split at h
      · simp only [Prod.mk.injEq, Option.some.injEq] at h
        exact Or.inr ⟨h.2.symm, h.1.symm⟩
      · simp only at h
        split at h
        · simp only [Prod.mk.injEq, Option.some.injEq] at h
          exact Or.inr ⟨h.2.symm, h.1.symm⟩
        · exact ih _ _ _ h
    · simp only [Prod.mk.injEq, Option.some.injEq] at h
      exact Or.inl ⟨h.2.symm, h.1.symm⟩

/-- The value that `Int64` returns together with an error is 0 or a bound of
the signed 64-bit range. -/
theorem Number_Int64_error (num : String) (h : (Number_Int64 num).2 ≠ none) :
    (Number_Int64 num).1 = 0 ∨ (Number_Int64 num).1 = 2 ^ 63 - 1 ∨
      (Number_Int64 num).1 = -2 ^ 63 := by
  unfold Number_Int64 ParseInt64 at *
  cases hs : num.data with
  | nil => simp
  | cons c cs =>
    simp only [hs] at h ⊢
    generalize ParseUint (if (c == '+' || c == '-') = true then cs else c :: cs) 64 = r at h ⊢
    obtain ⟨un, e⟩ := r
    rcases e with _ | _ | _
    · simp only at h ⊢
      split_ifs at h ⊢ <;> simp_all
    · simp
    · simp only at h ⊢
      split_ifs at h ⊢ <;> simp_all



theorem foldl_digits_ge (ds : List Char) : ∀ n : Nat,
    n ≤ ds.foldl (fun n c => n * 10 + digitVal c) n := by
  induction ds with
  | nil => intro n; exact Nat.le_refl _
  | cons c cs ih =>
    intro n
    simp only [List.foldl_cons]
    exact Nat.le_trans (by omega) (ih _)

theorem parseUintLoop_digits : ∀ (ds : List Char) (n : Nat),
    (∀ c ∈ ds, isDigitChar c = true) →
    ds.foldl (fun n c => n * 10 + digitVal c) n ≤ 2 ^ 64 - 1 →
    parseUintLoop (2 ^ 64 - 1) ds n = (ds.foldl (fun n c => n * 10 + digitVal c) n, none) := by
  intro ds
  induction ds with
  | nil => intro n _ _; rfl
  | cons c cs ih =>
    intro n hd hv
    simp only [List.foldl_cons] at hv ⊢
    have h1 := foldl_digits_ge cs (n * 10 + digitVal c)
    have hc : isDigitChar c = true := hd c (by simp)
    rw [parseUintLoop]
    have hn : ¬ (n ≥ (2 ^ 64 - 1) / 10 + 1) := by omega
    have hn1 : ¬ (n * 10 + digitVal c > 2 ^ 64 - 1 ∨ n * 10 + digitVal c > 2 ^ 64 - 1) := by omega
    simp only [hc, if_true, hn, if_false, hn1]
    exact ih _ (fun x hx => hd x (by simp [hx])) hv

theorem parseUintLoop_ok : ∀ (ds : List Char) (n v : Nat), n ≤ 2 ^ 64 - 1 →
    parseUintLoop (2 ^ 64 - 1) ds n = (v, none) →
    (∀ c ∈ ds, isDigitChar c = true) ∧ v = ds.foldl (fun n c => n * 10 + digitVal c) n ∧
      v ≤ 2 ^ 64 - 1 := by
  intro ds
  induction ds with
  | nil =>
    intro n v hn h
    simp only [parseUintLoop, Prod.mk.injEq, and_true] at h
    subst h
    exact ⟨by simp, rfl, hn⟩
  | cons c cs ih =>
    intro n v hn h
    rw [parseUintLoop] at h
    split at h
    · rename_i hc
      split at h
      · simp at h
      · simp only at h
        split at h
        · simp at h
        · rename_i hle
          obtain ⟨h1, h2, h3⟩ := ih _ _ (by omega) h
          refine ⟨?_, ?_, h3⟩
          · intro x hx
            rcases List.mem_cons.mp hx with rfl | hx
            · exact hc
            · exact h1 x hx
          · simpa using h2
    · simp at h



theorem ParseUint_eq_loop (body : List Char) (h : body ≠ []) :
    ParseUint body 64 = parseUintLoop (2 ^ 64 - 1) body 0 := by
  simp [ParseUint, h]

theorem isDigitChar_ne_sign (c : Char) (h : isDigitChar c = true) : c ≠ '+' ∧ c ≠ '-' := by
  constructor <;> (rintro rfl; exact absurd h (by decide))

theorem ParseInt64_cons (c : Char) (cs body : List Char) (neg : Bool) (un : Nat)
    (hbody : (if (c == '+' || c == '-') = true then cs else c :: cs) = body)
    (hneg : (c == '-') = neg) (hu : ParseUint body 64 = (un, none)) :
    ParseInt64 (c :: cs) =
      if !neg && un ≥ 2 ^ 63 then ((2 : Int) ^ 63 - 1, some NumError.range)
      else if neg && un > 2 ^ 63 then (-(2 : Int) ^ 63, some NumError.range)
      else (if neg then -(un : Int) else (un : Int), none) := by
  subst hbody hneg
  unfold ParseInt64
  simp only []
  rw [hu]

theorem ParseInt64_of_literal (s : String) (v : Int) (h : IsInt64Literal s v) :
    Number_Int64 s = (v, none) := by
  obtain ⟨sign, ds, hs, hsign, hne, hd, hv, hlo, hhi⟩ := h
  have hval : ds.foldl (fun n c => n * 10 + digitVal c) 0 = decimalValue ds := rfl
  have hu : ParseUint ds 64 = (decimalValue ds, none) := by
    have hle : decimalValue ds ≤ 2 ^ 64 - 1 := by
      split_ifs at hv <;> omega
    rw [ParseUint_eq_loop _ hne, parseUintLoop_digits _ 0 hd (by rw [hval]; exact hle), hval]
  unfold Number_Int64
  rw [hs]
  rcases hsign with rfl | rfl | rfl
  · have hv' : v = (decimalValue ds : Int) := by simpa using hv
    obtain ⟨c, cs, rfl⟩ := List.exists_cons_of_ne_nil hne
    have hc := isDigitChar_ne_sign c (hd c (by simp))
    rw [List.nil_append, ParseInt64_cons c cs (c :: cs) false _ (by simp [hc.1, hc.2])
      (by simp [hc.2]) hu]
    have h1 : ¬ (decimalValue (c :: cs) ≥ 2 ^ 63) := by omega
    simp [hv']
    omega
  · have hv' : v = (decimalValue ds : Int) := by simpa using hv
    rw [List.singleton_append, ParseInt64_cons '+' ds ds false _ (by simp) (by decide) hu]
    have h1 : ¬ (decimalValue ds ≥ 2 ^ 63) := by omega
    simp [hv']
    omega
  · have hv' : v = -(decimalValue ds : Int) := by simpa using hv
    rw [List.singleton_append, ParseInt64_cons '-' ds ds true _ (by simp) (by decide) hu]
    have h1 : ¬ (decimalValue ds > 2 ^ 63) := by omega
    simp [hv']
    omega

theorem ParseInt64_unfold (c : Char) (cs : List Char) :
    ParseInt64 (c :: cs) =
      match ParseUint (if (c == '+' || c == '-') = true then cs else c :: cs) 64 with
      | (_, some NumError.invalid) => (0, some NumError.invalid)
      | (un, _) =>
        if (!(c == '-') && decide (un ≥ 2 ^ 63)) = true then
          ((2 : Int) ^ 63 - 1, some NumError.range)
        else if ((c == '-') && decide (un > 2 ^ 63)) = true then
          (-(2 : Int) ^ 63, some NumError.range)
        else (if (c == '-') = true then -(un : Int) else (un : Int), none) := rfl

theorem literal_of_ParseInt64 (s : String) (v : Int) (h : Number_Int64 s = (v, none)) :
    IsInt64Literal s v := by
  unfold Number_Int64 at h
  cases hs : s.data with
  | nil => simp [hs, ParseInt64] at h
  | cons c cs =>
    rw [hs, ParseInt64_unfold] at h
    generalize hbody : (if (c == '+' || c == '-') = true then cs else c :: cs) = body at h
    by_cases hbn : body = []
    · simp [ParseUint, hbn] at h
    · rw [ParseUint_eq_loop _ hbn] at h
      cases hr : parseUintLoop (2 ^ 64 - 1) body 0 with
      | mk un e =>
        rw [hr] at h
        rcases e with _ | _ | _
        · obtain ⟨hd, hun, hle⟩ := parseUintLoop_ok body 0 un (by omega) hr
          have hun' : un = decimalValue body := hun
          simp only at h
          by_cases hplus : c = '+'
          · subst hplus
            have hb : body = cs := by rw [← hbody]; rfl
            subst hb
            have hneg : (('+' : Char) == '-') = false := by decide
            simp only [hneg] at h
            simp at h
            split_ifs at h with hge
            · simp at h
            · simp at h
              refine ⟨['+'], body, by rw [hs]; rfl, Or.inr (Or.inl rfl), hbn, hd, ?_, ?_, ?_⟩
              · simp [← h, hun']
              · omega
              · omega
          · by_cases hminus : c = '-'
            · subst hminus
              have hb : body = cs := by rw [← hbody]; rfl
              subst hb
              have hneg : (('-' : Char) == '-') = true := by decide
              simp only [hneg] at h
              simp at h
              split_ifs at h with hge
              · simp at h
              · simp at h
                refine ⟨['-'], body, by rw [hs]; rfl, Or.inr (Or.inr rfl), hbn, hd, ?_, ?_, ?_⟩
                · simp [← h, hun']
                · omega
                · omega
            · have hb : body = c :: cs := by rw [← hbody]; simp [hplus, hminus]
              subst hb
              have hneg : (c == '-') = false := by simp [hminus]
              simp only [hneg] at h
              simp at h
              split_ifs at h with hge
              · simp at h
              · simp at h
                refine ⟨[], c :: cs, by rw [hs]; rfl, Or.inl rfl, hbn, hd, ?_, ?_, ?_⟩
                · simp [← h, hun']
                · omega
                · omega
        · simp at h
        · obtain hh | hh := parseUintLoop_error _ _ _ _ _ hr
          · simp at hh
          · obtain ⟨-, rfl⟩ := hh
            simp only at h
            by_cases hc : c = '-' <;> simp [hc] at h

/-- The method `Int64` succeeds exactly on the decimal integer literals of the
signed 64-bit range, and then returns the number they denote. -/
theorem Number_Int64_iff (s : String) (v : Int) :
    Number_Int64 s = (v, none) ↔ IsInt64Literal s v :=
  ⟨literal_of_ParseInt64 s v, ParseInt64_of_literal s v⟩

/-- C5, the claim as stated fails: on an INTEGER column the token `1.5`, whose
coercion fails, is not stored unchanged but as the integer 0, and the token
`9223372036854775808`, which is out of range, as the largest signed 64-bit
integer. -/
theorem integer_token_failure_not_raw :
    (Number_Int64 "1.5").2 ≠ none ∧
    rowToMap sampleLib sampleTokenEvent (getColumnNames sampleTokenEvent)
      [Value.jsonNumber "1.5"] = some [("id", Value.integer IntKind.int64 0)] ∧
    (Number_Int64 "9223372036854775808").2 ≠ none ∧
    rowToMap sampleLib sampleTokenEvent (getColumnNames sampleTokenEvent)
      [Value.jsonNumber "9223372036854775808"] =
        some [("id", Value.integer IntKind.int64 9223372036854775807)] := by
  decide

/-- C5 as amended: for an INTEGER column (numeric, not `tinyint(1)`) and a
numeric token, `rowToMap` stores a signed 64-bit integer: the number that the
token denotes when the token is a decimal integer literal of the signed 64-bit
range, and otherwise 0 or a bound of that range, not the token. -/
theorem integer_column_stores_Int64 (lib : Lib) (e : RowsEvent) (row : List Value) (i : Nat)
    (column : TableColumn) (s : String)
    (hcol : e.Table.Columns[i]? = some column)
    (hint : isIntType column = true) (hnb : isBooleanType column = false)
    (hval : row[i]? = some (Value.jsonNumber s))
    (hlen : e.Table.Columns.length ≤ row.length)
    (hnd : (getColumnNames e).Nodup) :
    ∃ m n, rowToMap lib e (getColumnNames e) row = some m ∧
      m.get? column.Name = some (Value.integer IntKind.int64 n) ∧
      (∀ v, IsInt64Literal s v → n = v) ∧
      ((¬ ∃ v, IsInt64Literal s v) → n = 0 ∨ n = 2 ^ 63 - 1 ∨ n = -2 ^ 63) := by
  obtain ⟨m, hm, hget⟩ := rowToMap_get lib e row i column _ hcol hval (by simp) hlen hnd
  have hconv : convertValue lib column (Value.jsonNumber s) =
      Value.integer IntKind.int64 (Number_Int64 s).1 := by
    delta convertValue
    have hT : column.Typ = ColumnType.TYPE_NUMBER ∨ column.Typ = ColumnType.TYPE_MEDIUM_INT := by
      simpa [isIntType] using hint
    rcases hT with hT | hT <;>
      simp [isTextType, isDateType, isDateTimeType, isBitType, isFloatType, isIntType, hT, hnb]
  rw [hconv] at hget
  refine ⟨m, _, hm, hget, ?_, ?_⟩
  · intro v hv
    rw [(Number_Int64_iff s v).mpr hv]
  · intro hno
    apply Number_Int64_error
    intro hnone
    exact hno ⟨(Number_Int64 s).1, (Number_Int64_iff s _).mp (Prod.ext rfl hnone)⟩

/-- Witness for C5 as amended: the token `12` on the integer column of
`sampleTokenEvent`. -/
theorem integer_column_stores_Int64_witness :
    ∃ m n, rowToMap sampleLib sampleTokenEvent (getColumnNames sampleTokenEvent)
        [Value.jsonNumber "12"] = some m ∧
      m.get? "id" = some (Value.integer IntKind.int64 n) ∧
      (∀ v, IsInt64Literal "12" v → n = v) ∧
      ((¬ ∃ v, IsInt64Literal "12" v) → n = 0 ∨ n = 2 ^ 63 - 1 ∨ n = -2 ^ 63) :=
  integer_column_stores_Int64 sampleLib sampleTokenEvent [Value.jsonNumber "12"] 0
    { Name := "id", Typ := ColumnType.TYPE_NUMBER, RawType := "int(11)" } "12" rfl rfl
    (by decide) rfl (by decide) (by decide)

/-! ## The checkpoint -/

theorem decodeMember_flag (p q : BinlogPosition) (b : Bool) (kv : String × Json) :
    (decodeMember (p, b) kv).2 = (decodeMember (q, b) kv).2 := by
  unfold decodeMember
  split_ifs
  · cases kv.2 <;> rfl
  · cases hj : kv.2 <;> simp only []
    split <;> first | rfl | (split <;> rfl)
  · rfl

theorem foldl_decodeMember_flag (members : List (String × Json)) :
    ∀ (p q : BinlogPosition) (b : Bool),
      (members.foldl decodeMember (p, b)).2 = (members.foldl decodeMember (q, b)).2 := by
  induction members with
  | nil => intro p q b; rfl
  | cons kv rest ih =>
    intro p q b
    simp only [List.foldl_cons]
    have h := decodeMember_flag p q b kv
    rw [show decodeMember (p, b) kv = ((decodeMember (p, b) kv).1, (decodeMember (p, b) kv).2)
      from rfl,
      show decodeMember (q, b) kv = ((decodeMember (q, b) kv).1, (decodeMember (q, b) kv).2)
      from rfl, h]
    exact ih _ _ _

/-- Whether a text can be decoded does not depend on the value that the
variable `pos` has before. -/
theorem jsonUnmarshalPosition_flag (data : String) (p q : BinlogPosition) :
    (jsonUnmarshalPosition data p).2 = (jsonUnmarshalPosition data q).2 := by
  unfold jsonUnmarshalPosition
  split
  · exact foldl_decodeMember_flag _ p q false
  · rfl
  · rfl

/-- C4: `loadPosition` never returns an error; and when the fast tier gives no
position that can be decoded (no client, a failing or missing key, or a text
that `json.Unmarshal` rejects) and the file gives none either (it cannot be
read, or its text is rejected), the position returned has the empty name and the
offset 4. -/
theorem loadPosition_never_fails (w : World) :
    (loadPosition w).2 = none ∧
    ((∀ r data, w.redisClient = some r → redisGet r redisPositionKey = some data →
        (jsonUnmarshalPosition data { Name := goString "", Pos := 0 }).2 = true) →
     (∀ fileData, w.files w.positionFile = some fileData →
        (jsonUnmarshalPosition fileData { Name := goString "", Pos := 0 }).2 = true) →
     (loadPosition w).1 = { Name := goString "", Pos := 4 }) := by
  constructor
  · unfold loadPosition
    simp only []
    repeat' split
    all_goals rfl
  · intro hfast hfile
    have hfileAny : ∀ (pos : BinlogPosition),
        (match w.files w.positionFile with
          | none => (({ Name := goString "", Pos := 4 } : Position), (none : Option String))
          | some fileData =>
            match jsonUnmarshalPosition fileData pos with
            | (_, true) => ({ Name := goString "", Pos := 4 }, none)
            | (pos, false) => ({ Name := pos.Name, Pos := pos.Pos }, none)).1 =
          { Name := goString "", Pos := 4 } := by
      intro pos
      cases hf : w.files w.positionFile with
      | none => rfl
      | some fileData =>
        have h1 := hfile fileData hf
        rw [jsonUnmarshalPosition_flag fileData _ pos] at h1
        cases hu : jsonUnmarshalPosition fileData pos with
        | mk p flag =>
          rw [hu] at h1
          simp only at h1
          subst h1
          simp only [hu]
    unfold loadPosition
    simp only []
    cases hrc : w.redisClient with
    | none => exact hfileAny _
    | some r =>
      simp only []
      cases hg : redisGet r redisPositionKey with
      | none => exact hfileAny _
      | some data =>
        have h1 := hfast r data hrc hg
        simp only []
        cases hu : jsonUnmarshalPosition data { Name := goString "", Pos := 0 } with
        | mk p flag =>
          rw [hu] at h1
          simp only at h1
          subst h1
          simp only [hu]
          exact hfileAny _

/-! ### Strings: the encoder and the reader -/

theorem unquoteStep_quoteChar_ascii :
    ∀ n, n < 128 → ∀ (rest : List Char),
      unquoteStep (quoteChar (Char.ofNat n) ++ rest) = UnquoteStep.emit (Char.ofNat n) rest := by
  intro n hn
  interval_cases n <;> intro rest <;> rfl

/-- One round of the reader undoes the encoding of one character. -/
theorem unquoteStep_quoteChar (c : Char) (rest : List Char) :
    unquoteStep (quoteChar c ++ rest) = UnquoteStep.emit c rest := by
  by_cases hc : c.toNat < 128
  · have := unquoteStep_quoteChar_ascii c.toNat hc rest
    rwa [Char.ofNat_toNat] at this
  · by_cases h28 : c = Char.ofNat 0x2028
    · subst h28; rfl
    · by_cases h29 : c = Char.ofNat 0x2029
      · subst h29; rfl
      · have hq : quoteChar c = [c] := by
          unfold quoteChar
          have : ¬ c.toNat < 0x80 := hc
          simp [this, h28, h29]
        have h1 : c ≠ '\"' := by rintro rfl; exact hc (by decide)
        have h2 : c ≠ '\\' := by rintro rfl; exact hc (by decide)
        have h3 : ¬ c.toNat < 0x20 := by omega
        rw [hq, List.singleton_append]
        simp [unquoteStep, h1, h2, h3]

theorem unquoteLoop_quoteChar (c : Char) (fuel : Nat) (rest acc : List Char) :
    unquoteLoop (fuel + 1) (quoteChar c ++ rest) acc = unquoteLoop fuel rest (acc ++ [c]) := by
  rw [unquoteLoop, unquoteStep_quoteChar]

theorem length_quoteChar_pos (c : Char) : 1 ≤ (quoteChar c).length := by
  unfold quoteChar
  split_ifs <;> simp

/-- The reader undoes the encoder: after the opening quote of an encoded
string it returns the string and the text after the closing quote. -/
theorem unquoteLoop_quoted (s : List Char) : ∀ (fuel : Nat) (rest acc : List Char),
    (s.flatMap quoteChar).length + 1 ≤ fuel →
    unquoteLoop fuel (s.flatMap quoteChar ++ '\"' :: rest) acc = some (acc ++ s, rest) := by
  induction s with
  | nil =>
    intro fuel rest acc h
    obtain ⟨f, rfl⟩ : ∃ f, fuel = f + 1 := ⟨fuel - 1, by simp at h; omega⟩
    simp [unquoteLoop, unquoteStep]
  | cons c s ih =>
    intro fuel rest acc h
    have hpos := length_quoteChar_pos c
    simp only [List.flatMap_cons, List.length_append] at h
    obtain ⟨f, rfl⟩ : ∃ f, fuel = f + 1 := ⟨fuel - 1, by omega⟩
    rw [List.flatMap_cons, List.append_assoc, unquoteLoop_quoteChar, ih f rest _ (by omega)]
    simp

theorem unquote_quoted (s rest : List Char) :
    unquote (s.flatMap quoteChar ++ '\"' :: rest) = some (s, rest) := by
  unfold unquote
  rw [unquoteLoop_quoted s _ rest [] (by simp)]
  simp

/-! ### Numbers: the encoder and the readers -/

theorem digitChar_spec (d : Nat) :
    isDigitChar (digitChar d) = true ∧ digitVal (digitChar d) = d % 10 := by
  have h : d % 10 < 10 := Nat.mod_lt _ (by omega)
  unfold digitChar
  generalize d % 10 = k at h
  interval_cases k <;> exact ⟨by decide, by decide⟩

theorem digitChar_ne_zero (d : Nat) (h0 : 0 < d) (h : d < 10) : digitChar d ≠ '0' := by
  interval_cases d <;> decide

theorem decimalDigits_digits :
    ∀ (fuel n : Nat), ∀ c ∈ decimalDigits fuel n, isDigitChar c = true := by
  intro fuel
  induction fuel with
  | zero => intro n c hc; simp [decimalDigits] at hc
  | succ fuel ih =>
    intro n c hc
    rw [decimalDigits] at hc
    split_ifs at hc
    · simp only [List.mem_singleton] at hc
      subst hc
      exact (digitChar_spec n).1
    · rcases List.mem_append.mp hc with h | h
      · exact ih _ _ h
      · simp only [List.mem_singleton] at h
        subst h
        exact (digitChar_spec n).1

theorem foldl_decimalDigits : ∀ (fuel n : Nat), n < 10 ^ fuel →
    (decimalDigits fuel n).foldl (fun n c => n * 10 + digitVal c) 0 = n := by
  intro fuel
  induction fuel with
  | zero => intro n h; simp at h; subst h; rfl
  | succ fuel ih =>
    intro n h
    rw [decimalDigits]
    split_ifs with h10
    · simp only [List.foldl_cons, List.foldl_nil, (digitChar_spec n).2]
      omega
    · have hq : n / 10 < 10 ^ fuel := by
        rw [Nat.div_lt_iff_lt_mul (by omega)]
        rw [pow_succ] at h
        exact h
      rw [List.foldl_append, ih _ hq]
      simp only [List.foldl_cons, List.foldl_nil, (digitChar_spec n).2]
      omega

theorem decimalDigits_head : ∀ (fuel n : Nat), 0 < n → n < 10 ^ fuel →
    ∃ c rest, decimalDigits fuel n = c :: rest ∧ c ≠ '0' := by
  intro fuel
  induction fuel with
  | zero => intro n h0 h; simp at h; omega
  | succ fuel ih =>
    intro n h0 h
    rw [decimalDigits]
    split_ifs with h10
    · exact ⟨_, [], rfl, digitChar_ne_zero n h0 h10⟩
    · have hq : n / 10 < 10 ^ fuel := by
        rw [Nat.div_lt_iff_lt_mul (by omega)]
        rw [pow_succ] at h
        exact h
      obtain ⟨c, rest, hc, hne⟩ := ih (n / 10) (Nat.div_pos (by omega) (by omega)) hq
      exact ⟨c, rest ++ [digitChar n], by rw [hc]; rfl, hne⟩

theorem lt_ten_pow_succ (n : Nat) : n < 10 ^ (n + 1) :=
  Nat.lt_trans (Nat.lt_pow_self (by omega) n) (Nat.pow_lt_pow_right (by omega) (by omega))

/-- The text of a number is read back as that number. -/
theorem ParseUint_formatUint (n : Nat) (h : n ≤ 2 ^ 64 - 1) :
    ParseUint (formatUint n) 64 = (n, none) := by
  have hd := decimalDigits_digits (n + 1) n
  have hv := foldl_decimalDigits (n + 1) n (lt_ten_pow_succ n)
  have hne : formatUint n ≠ [] := by
    unfold formatUint
    rw [decimalDigits]
    split_ifs <;> simp
  rw [ParseUint_eq_loop _ hne]
  unfold formatUint
  rw [parseUintLoop_digits _ 0 hd (by rw [hv]; exact h), hv]

theorem span_digits (ds rest : List Char) (c : Char) (hd : ∀ x ∈ ds, isDigitChar x = true)
    (hc : isDigitChar c = false) :
    (ds ++ c :: rest).span isDigitChar = (ds, c :: rest) := by
  rw [List.span_eq_take_drop, List.takeWhile_append_of_pos hd, List.dropWhile_append_of_pos hd]
  simp [List.takeWhile_cons, List.dropWhile_cons, hc]

/-- The JSON reader takes the text of a number, followed by a closing brace, as
a number literal. -/
theorem parseNumber_formatUint (n : Nat) (rest : List Char) :
    parseNumber (formatUint n ++ '\x7d' :: rest) = some (formatUint n, '\x7d' :: rest) := by
  have hd := decimalDigits_digits (n + 1) n
  have hb : isDigitChar '\x7d' = false := by decide
  by_cases h0 : n = 0
  · subst h0
    rfl
  · obtain ⟨c, ds, hc, hne⟩ := decimalDigits_head (n + 1) n (by omega) (lt_ten_pow_succ n)
    unfold formatUint at *
    rw [hc] at hd ⊢
    have hcd : isDigitChar c = true := hd c (by simp)
    have hminus : c ≠ '-' := (isDigitChar_ne_sign c hcd).2
    have hds : ∀ x ∈ ds, isDigitChar x = true := fun x hx => hd x (by simp [hx])
    have hint : parseIntPart (c :: (ds ++ '\x7d' :: rest)) = some (c :: ds, '\x7d' :: rest) := by
      simp only [parseIntPart, hne, if_false, hcd, if_true, span_digits ds rest _ hds hb]
    have hfrac : parseFrac ('\x7d' :: rest) = some ([], '\x7d' :: rest) := by
      simp [parseFrac]
    have hexp : parseExp ('\x7d' :: rest) = some ([], '\x7d' :: rest) := by
      simp [parseExp]
    simp only [parseNumber, List.cons_append, hminus, if_false, hint, hfrac, hexp]
    simp

/-! ### The checkpoint text -/

theorem parseValue_string (fuel depth : Nat) (s rest : List Char) :
    parseValue (fuel + 1) depth ('\"' :: (s.flatMap quoteChar ++ '\"' :: rest)) =
      some (Json.str (String.mk s), rest) := by
  have h1 : skipWS ('\"' :: (s.flatMap quoteChar ++ '\"' :: rest)) =
      '\"' :: (s.flatMap quoteChar ++ '\"' :: rest) := rfl
  rw [parseValue, h1]
  have h2 : ('\"' : Char) ≠ '\x7b' := by decide
  have h3 : ('\"' : Char) ≠ '[' := by decide
  simp only [h2, h3, if_false, if_true, parseScalar, unquote_quoted]

theorem isDigitChar_ne_start (c : Char) (h : isDigitChar c = true) :
    isJsonSpace c = false ∧ c ≠ '\x7b' ∧ c ≠ '[' ∧ c ≠ '\"' ∧ c ≠ 't' ∧ c ≠ 'f' ∧ c ≠ 'n' := by
  refine ⟨?_, ?_, ?_, ?_, ?_, ?_, ?_⟩
  · by_contra hs
    have hs' : isJsonSpace c = true := by simpa using hs
    simp only [isJsonSpace, Bool.or_eq_true, beq_iff_eq] at hs'
    rcases hs' with ((rfl | rfl) | rfl) | rfl <;> exact absurd h (by decide)
  all_goals (rintro rfl; exact absurd h (by decide))

theorem parseValue_number (fuel depth n : Nat) (rest : List Char) :
    parseValue (fuel + 1) depth (formatUint n ++ '\x7d' :: rest) =
      some (Json.num (String.mk (formatUint n)), '\x7d' :: rest) := by
  have hnum := parseNumber_formatUint n rest
  have hd := decimalDigits_digits (n + 1) n
  obtain ⟨c, ds, hc⟩ : ∃ c ds, formatUint n = c :: ds := by
    unfold formatUint
    rw [decimalDigits]
    split_ifs
    · exact ⟨_, _, rfl⟩
    · cases h : decimalDigits n (n / 10) with
      | nil => exact ⟨_, _, rfl⟩
      | cons a l => exact ⟨_, _, rfl⟩
  have hcd : isDigitChar c = true := hd c (by unfold formatUint at hc; rw [hc]; simp)
  obtain ⟨h0, h1, h2, h3, h4, h5, h6⟩ := isDigitChar_ne_start c hcd
  rw [hc] at hnum ⊢
  have hs : skipWS (c :: ds ++ '\x7d' :: rest) = c :: (ds ++ '\x7d' :: rest) := by
    simp [skipWS, h0]
  rw [parseValue, hs]
  simp only [h1, h2, h3, h4, h5, h6, if_false, parseScalar]
  rw [← List.cons_append, hnum]

theorem toNat_ofNat_lt (k : Nat) (h : k < 256) : (UInt8.ofNat k).toNat = k := by
  show (BitVec.ofNat 8 k).toNat = k
  rw [BitVec.toNat_ofNat]
  exact Nat.mod_eq_of_lt h

theorem char_range (c : Char) : c.toNat < 0xD800 ∨ (0xDFFF < c.toNat ∧ c.toNat < 0x110000) :=
  c.valid

/-- The decoder reads back the encoding of a character. -/
theorem decodeRune_utf8EncodeChar (c : Char) (rest : List UInt8) :
    decodeRune (utf8EncodeChar c ++ rest) = some (c, rest) := by
  have hv := char_range c
  have hc : Char.ofNat c.toNat = c := Char.ofNat_toNat c
  unfold utf8EncodeChar
  simp only []
  generalize c.toNat = n at hv hc
  split_ifs with h1 h2 h3
  · simp only [List.singleton_append, decodeRune, toNat_ofNat_lt n (by omega), h1, if_true, hc]
  · have e0 := toNat_ofNat_lt (0xC0 + n / 64) (by omega)
    have e1 := toNat_ofNat_lt (0x80 + n % 64) (by omega)
    simp only [List.cons_append, List.nil_append, decodeRune, e0, e1]
    have a1 : ¬ (0xC0 + n / 64 < 0x80) := by omega
    have a2 : ¬ (0xC0 + n / 64 < 0xC2 ∨ 0xF4 < 0xC0 + n / 64) := by omega
    have a3 : ¬ (0xC0 + n / 64 = 0xE0) := by omega
    have a4 : ¬ (0xC0 + n / 64 = 0xF0) := by omega
    have a5 : ¬ (0xC0 + n / 64 = 0xED) := by omega
    have a6 : ¬ (0xC0 + n / 64 = 0xF4) := by omega
    have a7 : ¬ (0x80 + n % 64 < 0x80 ∨ 0xBF < 0x80 + n % 64) := by omega
    have a8 : 0xC0 + n / 64 < 0xE0 := by omega
    have a9 : (0xC0 + n / 64) % 32 * 64 + (0x80 + n % 64) % 64 = n := by omega
    simp only [a1, a2, a3, a4, a5, a6, a7, a8, a9, if_true, if_false, hc]
  · have e0 := toNat_ofNat_lt (0xE0 + n / 4096) (by omega)
    have e1 := toNat_ofNat_lt (0x80 + n / 64 % 64) (by omega)
    have e2 := toNat_ofNat_lt (0x80 + n % 64) (by omega)
    simp only [List.cons_append, List.nil_append, decodeRune, e0, e1, e2]
    have a1 : ¬ (0xE0 + n / 4096 < 0x80) := by omega
    have a2 : ¬ (0xE0 + n / 4096 < 0xC2 ∨ 0xF4 < 0xE0 + n / 4096) := by omega
    have a4 : ¬ (0xE0 + n / 4096 = 0xF0) := by omega
    have a6 : ¬ (0xE0 + n / 4096 = 0xF4) := by omega
    have a7 : ¬ (0x80 + n % 64 < 0x80 ∨ 0xBF < 0x80 + n % 64) := by omega
    have a8 : ¬ (0xE0 + n / 4096 < 0xE0) := by omega
    have a9 : 0xE0 + n / 4096 < 0xF0 := by omega
    have a10 : (0xE0 + n / 4096) % 16 * 4096 + (0x80 + n / 64 % 64) % 64 * 64 +
        (0x80 + n % 64) % 64 = n := by omega
    have a11 : ¬ (0x80 + n / 64 % 64 <
        (if 0xE0 + n / 4096 = 0xE0 then 0xA0 else 0x80) ∨
        (if 0xE0 + n / 4096 = 0xED then 0x9F else 0xBF) < 0x80 + n / 64 % 64) := by
      split_ifs <;> omega
    simp only [a1, a2, a4, a6, a7, a8, a9, a10, a11, if_true, if_false, hc]
  · have hn : n < 0x110000 := by omega
    have e0 := toNat_ofNat_lt (0xF0 + n / 262144) (by omega)
    have e1 := toNat_ofNat_lt (0x80 + n / 4096 % 64) (by omega)
    have e2 := toNat_ofNat_lt (0x80 + n / 64 % 64) (by omega)
    have e3 := toNat_ofNat_lt (0x80 + n % 64) (by omega)
    simp only [List.cons_append, List.nil_append, decodeRune, e0, e1, e2, e3]
    have a1 : ¬ (0xF0 + n / 262144 < 0x80) := by omega
    have a2 : ¬ (0xF0 + n / 262144 < 0xC2 ∨ 0xF4 < 0xF0 + n / 262144) := by omega
    have a3 : ¬ (0xF0 + n / 262144 = 0xE0) := by omega
    have a5 : ¬ (0xF0 + n / 262144 = 0xED) := by omega
    have a7 : ¬ (0x80 + n % 64 < 0x80 ∨ 0xBF < 0x80 + n % 64) := by omega
    have a7' : ¬ (0x80 + n / 64 % 64 < 0x80 ∨ 0xBF < 0x80 + n / 64 % 64) := by omega
    have a8 : ¬ (0xF0 + n / 262144 < 0xE0) := by omega
    have a9 : ¬ (0xF0 + n / 262144 < 0xF0) := by omega
    have a10 : (0xF0 + n / 262144) % 8 * 262144 + (0x80 + n / 4096 % 64) % 64 * 4096 +
        (0x80 + n / 64 % 64) % 64 * 64 + (0x80 + n % 64) % 64 = n := by omega
    have a11 : ¬ (0x80 + n / 4096 % 64 <
        (if 0xF0 + n / 262144 = 0xF0 then 0x90 else 0x80) ∨
        (if 0xF0 + n / 262144 = 0xF4 then 0x8F else 0xBF) < 0x80 + n / 4096 % 64) := by
      split_ifs <;> omega
    simp only [a1, a2, a3, a5, a7, a7', a8, a9, a10, a11, if_true, if_false, hc]

theorem utf8EncodeChar_ascii (c : Char) (h : c.toNat < 0x80) :
    utf8EncodeChar c = [UInt8.ofNat c.toNat] := by
  simp [utf8EncodeChar, h]

theorem utf8EncodeChar_head (c : Char) (h : ¬ c.toNat < 0x80) :
    ∃ b bs, utf8EncodeChar c = b :: bs ∧ ¬ b.toNat < 0x80 := by
  have hv := char_range c
  unfold utf8EncodeChar
  simp only [h, if_false]
  split_ifs
  · exact ⟨_, _, rfl, by rw [toNat_ofNat_lt _ (by omega)]; omega⟩
  · exact ⟨_, _, rfl, by rw [toNat_ofNat_lt _ (by omega)]; omega⟩
  · exact ⟨_, _, rfl, by rw [toNat_ofNat_lt _ (by omega)]; omega⟩

theorem length_utf8EncodeChar_pos (c : Char) : 1 ≤ (utf8EncodeChar c).length := by
  unfold utf8EncodeChar
  simp only []
  split_ifs <;> simp

/-- One round of the encoder on the bytes of a character. -/
theorem quoteBytes_utf8EncodeChar (c : Char) (fuel : Nat) (rest : List UInt8) :
    quoteBytes (fuel + 1) (utf8EncodeChar c ++ rest) = quoteChar c ++ quoteBytes fuel rest := by
  by_cases h : c.toNat < 0x80
  · rw [utf8EncodeChar_ascii c h, List.singleton_append, quoteBytes,
      toNat_ofNat_lt _ (by omega), if_pos h, Char.ofNat_toNat]
  · obtain ⟨b, bs, hb, hge⟩ := utf8EncodeChar_head c h
    have hd := decodeRune_utf8EncodeChar c rest
    rw [hb] at hd ⊢
    rw [List.cons_append] at hd ⊢
    rw [quoteBytes, if_neg hge, hd]

/-- The encoder on the bytes of a text: the encodings of its characters. -/
theorem quoteBytes_goString (t : List Char) : ∀ fuel : Nat,
    (t.flatMap utf8EncodeChar).length ≤ fuel →
    quoteBytes fuel (t.flatMap utf8EncodeChar) = t.flatMap quoteChar := by
  induction t with
  | nil =>
    intro fuel _
    cases fuel <;> rfl
  | cons c t ih =>
    intro fuel h
    have hpos := length_utf8EncodeChar_pos c
    simp only [List.flatMap_cons, List.length_append] at h
    obtain ⟨f, rfl⟩ : ∃ f, fuel = f + 1 := ⟨fuel - 1, by omega⟩
    rw [List.flatMap_cons, quoteBytes_utf8EncodeChar, ih f (by omega), List.flatMap_cons]

theorem marshalPosition_data (t : String) (pos : Nat) :
    (marshalPosition { Name := goString t, Pos := pos }).data =
      '\x7b' :: '\"' :: 'n' :: 'a' :: 'm' :: 'e' :: '\"' :: ':' :: '\"' ::
        (t.data.flatMap quoteChar ++ '\"' :: ',' :: '\"' :: 'p' :: 'o' :: 's' :: '\"' ::
          ':' :: (formatUint pos ++ '\x7d' :: [])) := by
  have h := quoteBytes_goString t.data (goString t).length (le_refl _)
  simp only [marshalPosition, quoteString]
  rw [show quoteBytes (goString t).length (goString t) = t.data.flatMap quoteChar from h]
  simp

theorem unquote_name (rest : List Char) :
    unquote ('n' :: 'a' :: 'm' :: 'e' :: '\"' :: rest) = some (['n', 'a', 'm', 'e'], rest) :=
  unquote_quoted ['n', 'a', 'm', 'e'] rest

theorem unquote_pos (rest : List Char) :
    unquote ('p' :: 'o' :: 's' :: '\"' :: rest) = some (['p', 'o', 's'], rest) :=
  unquote_quoted ['p', 'o', 's'] rest

/-- A member of an object that is followed by a comma. -/
theorem parseMembers_comma (fuel depth : Nat) (s1 key r2 r4 : List Char) (v : Json)
    (acc : List (String × Json))
    (hk : unquote s1 = some (key, ':' :: r2))
    (hv : parseValue fuel depth r2 = some (v, ',' :: r4)) :
    parseMembers (fuel + 1) depth ('\"' :: s1) acc =
      parseMembers fuel depth r4 (acc ++ [(String.mk key, v)]) := by
  have h1 : skipWS ('\"' :: s1) = '\"' :: s1 := rfl
  have h2 : skipWS (':' :: r2) = ':' :: r2 := rfl
  have h3 : skipWS (',' :: r4) = ',' :: r4 := rfl
  rw [parseMembers, h1]
  simp only [if_true, hk, h2, hv, h3]

/-- The last member of an object. -/
theorem parseMembers_last (fuel depth : Nat) (s1 key r2 r4 : List Char) (v : Json)
    (acc : List (String × Json))
    (hk : unquote s1 = some (key, ':' :: r2))
    (hv : parseValue fuel depth r2 = some (v, '\x7d' :: r4)) :
    parseMembers (fuel + 1) depth ('\"' :: s1) acc =
      some (Json.obj (acc ++ [(String.mk key, v)]), r4) := by
  have h1 : skipWS ('\"' :: s1) = '\"' :: s1 := rfl
  have h2 : skipWS (':' :: r2) = ':' :: r2 := rfl
  have h3 : skipWS ('\x7d' :: r4) = '\x7d' :: r4 := rfl
  have h4 : ('\x7d' : Char) ≠ ',' := by decide
  rw [parseMembers, h1]
  simp only [if_true, hk, h2, hv, h3, h4, if_false]

/-- The JSON reader on the text that `json.Marshal` writes for a position whose
name is the text `t`. -/
theorem parseJSON_marshalPosition (t : String) (pos : Nat) :
    parseJSON (marshalPosition { Name := goString t, Pos := pos }).data =
      some (Json.obj
        [("name", Json.str t), ("pos", Json.num (String.mk (formatUint pos)))]) := by
  unfold parseJSON
  have hlen : 4 ≤ (marshalPosition { Name := goString t, Pos := pos }).data.length + 1 := by
    rw [marshalPosition_data]
    simp only [List.length_cons]
    omega
  obtain ⟨f, hf⟩ := Nat.exists_eq_add_of_le hlen
  rw [hf, marshalPosition_data, show 4 + f = (f + 3) + 1 by omega, parseValue]
  have h1 : ∀ rest, skipWS ('\x7b' :: rest) = '\x7b' :: rest := fun _ => rfl
  have h2 : ∀ rest, skipWS ('\"' :: rest) = '\"' :: rest := fun _ => rfl
  have h3 : ('\"' : Char) ≠ '\x7d' := by decide
  have h4 : ¬ (0 + 1 > maxNestingDepth) := by decide
  simp only [h1, h2, h3, h4, if_true, if_false]
  rw [parseMembers_comma (f + 2) (0 + 1) _ _ _ _ _ [] (unquote_name _)
      (parseValue_string (f + 1) (0 + 1) t.data _),
    parseMembers_last (f + 1) (0 + 1) _ _ _ _ _ _ (unquote_pos _)
      (parseValue_number f (0 + 1) pos [])]
  rfl

/-- `json.Unmarshal` reads back what `json.Marshal` wrote for a position with a
name that is a text and an offset of 32 bits, whatever the variable held
before. -/
theorem jsonUnmarshalPosition_marshalPosition (t : String) (n : Nat) (pos : BinlogPosition)
    (h : n < 2 ^ 32) :
    jsonUnmarshalPosition (marshalPosition { Name := goString t, Pos := n }) pos =
      ({ Name := goString t, Pos := n }, false) := by
  unfold jsonUnmarshalPosition
  rw [parseJSON_marshalPosition]
  have h1 : foldName "name" = "NAME".data := by decide
  have h2 : foldName "pos" ≠ "NAME".data := by decide
  have h3 : foldName "pos" = "POS".data := by decide
  have h4 : ParseUint (formatUint n) 64 = (n, none) :=
    ParseUint_formatUint n (by omega)
  simp only [List.foldl_cons, List.foldl_nil, decodeMember, h1, h2, h3, if_true, if_false, h4, h]
  rw [if_neg (by decide)]

/-- C3, the claim as stated fails: the log name `bin\xff.000003`, whose byte `0xff` is
not UTF-8, with the offset 157, in a process without Redis and with a file that
can be written.  `json.Marshal` writes the byte as the escape of U+FFFD, so the
file holds another name, and `loadPosition` returns that name: the three bytes
`ef bf bd` stand where the byte `ff` was. -/
theorem checkpoint_invalid_name_changed :
    sampleWorld.redisClient = none ∧
    sampleWorld.writable sampleWorld.positionFile = true ∧
    (savePosition sampleWorld { Name := sampleBadName, Pos := 157 }).files
        sampleWorld.positionFile =
      some "\x7b\"name\":\"bin\\ufffd.000003\",\"pos\":157\x7d" ∧
    loadPosition (savePosition sampleWorld { Name := sampleBadName, Pos := 157 }) =
      ({ Name := [0x62, 0x69, 0x6e, 0xef, 0xbf, 0xbd, 0x2e, 0x30, 0x30, 0x30, 0x30, 0x30, 0x33],
         Pos := 157 }, none) ∧
    loadPosition (savePosition sampleWorld { Name := sampleBadName, Pos := 157 }) ≠
      ({ Name := sampleBadName, Pos := 157 }, none) :=
  ⟨rfl, rfl, by decide, by decide, by decide⟩

/-- C3 as amended: with the fast tier unavailable (`redisClient` is nil) and the
file write succeeding, `savePosition(p)` followed by `loadPosition()` returns
exactly `p`, with no error, for every log name that is valid UTF-8 and every
offset of 32 bits; the position is read from the file, which holds the encoding
of `p`. -/
theorem checkpoint_round_trip (w : World) (p : Position)
    (hredis : w.redisClient = none)
    (hwrite : w.writable w.positionFile = true)
    (hname : ValidUTF8 p.Name)
    (hpos : p.Pos < 2 ^ 32) :
    loadPosition (savePosition w p) = (p, none) ∧
    (savePosition w p).redisClient = none ∧
    (savePosition w p).files (savePosition w p).positionFile =
      some (marshalPosition { Name := p.Name, Pos := p.Pos }) := by
  obtain ⟨t, ht⟩ := hname
  obtain ⟨name, pos⟩ := p
  simp only at ht hpos
  subst ht
  have hsave : savePosition w { Name := goString t, Pos := pos } =
      { w with files := fun path =>
          if path = w.positionFile then
            some (marshalPosition { Name := goString t, Pos := pos })
          else w.files path } := by
    simp [savePosition, hredis, hwrite]
  rw [hsave]
  refine ⟨?_, hredis, by simp⟩
  unfold loadPosition
  simp only [hredis, if_true, jsonUnmarshalPosition_marshalPosition t pos _ hpos]

/-- Witness for C3 as amended: the position `bin.000003`, 157 in a process without Redis. -/
theorem checkpoint_round_trip_witness :
    loadPosition (savePosition sampleWorld { Name := goString "bin.000003", Pos := 157 }) =
      ({ Name := goString "bin.000003", Pos := 157 }, none) :=
  (checkpoint_round_trip sampleWorld { Name := goString "bin.000003", Pos := 157 } rfl rfl
    ⟨"bin.000003", rfl⟩ (by decide)).1

theorem decodeMember_valid (st : BinlogPosition × Bool) (kv : String × Json)
    (h : ValidUTF8 st.1.Name) : ValidUTF8 (decodeMember st kv).1.Name := by
  unfold decodeMember
  split_ifs
  · split
    · exact h
    · exact ⟨_, rfl⟩
    · exact h
  · split
    · exact h
    · split
      · split_ifs
        · exact h
        · exact h
      · exact h
    · exact h
  · exact h

theorem foldl_decodeMember_valid (members : List (String × Json)) :
    ∀ st : BinlogPosition × Bool, ValidUTF8 st.1.Name →
      ValidUTF8 (members.foldl decodeMember st).1.Name := by
  induction members with
  | nil => intro st h; exact h
  | cons kv rest ih =>
    intro st h
    exact ih _ (decodeMember_valid st kv h)

theorem jsonUnmarshalPosition_valid (data : String) (pos : BinlogPosition)
    (h : ValidUTF8 pos.Name) : ValidUTF8 (jsonUnmarshalPosition data pos).1.Name := by
  unfold jsonUnmarshalPosition
  split
  · exact foldl_decodeMember_valid _ _ h
  · exact h
  · exact h

/-- The log name that `loadPosition` returns is valid UTF-8 in every state of
the stores. -/
theorem loadPosition_name_valid (w : World) : ValidUTF8 (loadPosition w).1.Name := by
  have h0 : ValidUTF8 (({ Name := goString "", Pos := 0 } : BinlogPosition)).Name := ⟨"", rfl⟩
  have hfile : ∀ pos : BinlogPosition, ValidUTF8 pos.Name →
      ValidUTF8 (match w.files w.positionFile with
        | none => (({ Name := goString "", Pos := 4 } : Position), (none : Option String))
        | some fileData =>
          match jsonUnmarshalPosition fileData pos with
          | (_, true) => ({ Name := goString "", Pos := 4 }, none)
          | (pos, false) => ({ Name := pos.Name, Pos := pos.Pos }, none)).1.Name := by
    intro pos hp
    cases hf : w.files w.positionFile with
    | none => exact ⟨"", rfl⟩
    | some fileData =>
      have hv := jsonUnmarshalPosition_valid fileData pos hp
      cases hu : jsonUnmarshalPosition fileData pos with
      | mk q flag =>
        rw [hu] at hv
        cases flag
        · simp only [hu]
          exact hv
        · simp only [hu]
          exact ⟨"", rfl⟩
  unfold loadPosition
  simp only []
  cases hrc : w.redisClient with
  | none => exact hfile _ h0
  | some r =>
    simp only []
    cases hg : redisGet r redisPositionKey with
    | none => exact hfile _ h0
    | some data =>
      simp only []
      have hv := jsonUnmarshalPosition_valid data _ h0
      cases hu : jsonUnmarshalPosition data { Name := goString "", Pos := 0 } with
      | mk q flag =>
        rw [hu] at hv
        cases flag
        · simp only [hu]
          exact hv
        · simp only [hu]
          exact hfile _ hv

/-- A position whose log name is not valid UTF-8 is never what `loadPosition`
returns, whatever was saved. -/
theorem loadPosition_ne_of_invalid (w : World) (p : Position) (h : ¬ ValidUTF8 p.Name) :
    (loadPosition w).1 ≠ p := by
  intro he
  exact h (he ▸ loadPosition_name_valid w)

/-! ## Dates -/

theorem daysIn_eq_daysInMonth (y m : Nat) (h1 : 1 ≤ m) (h12 : m ≤ 12) :
    daysIn m y = daysInMonth y m := by
  unfold daysIn daysInMonth isLeap
  interval_cases m <;> simp [daysBefore]
  by_cases h4 : y % 4 = 0 <;> by_cases h100 : y % 100 = 0 <;> by_cases h400 : y % 400 = 0 <;>
    simp [h4, h100, h400]
  all_goals omega

theorem isDigitChar_toNat (c : Char) (h : isDigitChar c = true) :
    48 ≤ c.toNat ∧ c.toNat ≤ 57 := by
  simp only [isDigitChar, Bool.and_eq_true, decide_eq_true_eq] at h
  exact ⟨h.1, h.2⟩

theorem digitChar_digitVal (c : Char) (h : isDigitChar c = true) :
    digitVal c < 10 ∧ digitChar (digitVal c) = c := by
  obtain ⟨h1, h2⟩ := isDigitChar_toNat c h
  have hc : c = Char.ofNat c.toNat := (Char.ofNat_toNat c).symm
  generalize c.toNat = k at h1 h2 hc
  subst hc
  interval_cases k <;> exact ⟨by decide, by decide⟩

theorem getYear4_pad4 (y : Nat) (hy : y ≤ 9999) (rest : List Char) :
    getYear4 (pad4 y ++ rest) = some (y, rest) := by
  simp only [pad4, List.cons_append, List.nil_append, getYear4, (digitChar_spec _).1,
    (digitChar_spec _).2, Bool.and_self, if_true]
  congr 2
  omega

theorem getnum2_pad2 (n : Nat) (hn : n ≤ 99) (rest : List Char) :
    getnum2 (pad2 n ++ rest) = some (n, rest) := by
  simp only [pad2, List.cons_append, List.nil_append, getnum2, (digitChar_spec _).1,
    (digitChar_spec _).2, Bool.and_self, if_true]
  congr 2
  omega

theorem daysInMonth_le (y m : Nat) : daysInMonth y m ≤ 31 := by
  unfold daysInMonth
  split_ifs <;> omega

theorem formatRFC3339_eq (y m d : Nat) (hy : y ≤ 9999) (hm : m ≤ 99) (hd : d ≤ 99) :
    formatRFC3339 y m d = (pad4 y ++ '-' :: (pad2 m ++ '-' :: pad2 d)) ++ "T00:00:00Z".data := by
  have h4 : appendInt y 4 = pad4 y := by
    unfold appendInt
    rw [if_neg (by omega), if_pos ⟨rfl, by omega⟩]
    rfl
  have h2 : ∀ n, n ≤ 99 → appendInt n 2 = pad2 n := by
    intro n hn
    unfold appendInt
    rw [if_pos ⟨rfl, by omega⟩]
    rfl
  unfold formatRFC3339
  rw [h4, h2 m hm, h2 d hd, h2 0 (by omega)]
  rfl

/-- The parser accepts the calendar dates and returns their year, month and
day. -/
theorem timeParseDate_of_date (y m d : Nat) (hy : y ≤ 9999) (hm1 : 1 ≤ m) (hm12 : m ≤ 12)
    (hd1 : 1 ≤ d) (hd : d ≤ daysInMonth y m) :
    timeParseDate (pad4 y ++ '-' :: (pad2 m ++ '-' :: pad2 d)) = some (y, m, d) := by
  have hd31 := daysInMonth_le y m
  unfold timeParseDate
  rw [getYear4_pad4 y hy]
  simp only [skipDash, if_true]
  rw [getnum2_pad2 m (by omega)]
  simp only [skipDash, if_true]
  have hp : pad2 d = pad2 d ++ [] := by simp
  rw [hp, getnum2_pad2 d (by omega), daysIn_eq_daysInMonth y m hm1 hm12]
  have h1 : ¬ (m ≤ 0 ∨ 12 < m) := by omega
  have h2 : ¬ (d < 1 ∨ d > daysInMonth y m) := by omega
  simp only [h1, h2, if_false, ne_eq, not_true_eq_false]

theorem getYear4_inv (s rest : List Char) (y : Nat) (h : getYear4 s = some (y, rest)) :
    ∃ a b c d, s = a :: b :: c :: d :: rest ∧ isDigitChar a = true ∧ isDigitChar b = true ∧
      isDigitChar c = true ∧ isDigitChar d = true ∧
      y = digitVal a * 1000 + digitVal b * 100 + digitVal c * 10 + digitVal d := by
  unfold getYear4 at h
  split at h
  · rename_i a b c d r
    split_ifs at h with hd
    simp only [Option.some.injEq, Prod.mk.injEq] at h
    simp only [Bool.and_eq_true] at hd
    obtain ⟨rfl, rfl⟩ := h
    exact ⟨a, b, c, d, rfl, hd.1.1.1, hd.1.1.2, hd.1.2, hd.2, rfl⟩
  · simp at h

theorem getnum2_inv (s rest : List Char) (n : Nat) (h : getnum2 s = some (n, rest)) :
    ∃ a b, s = a :: b :: rest ∧ isDigitChar a = true ∧ isDigitChar b = true ∧
      n = digitVal a * 10 + digitVal b := by
  unfold getnum2 at h
  split at h
  · rename_i a b r
    split_ifs at h with hd
    simp only [Option.some.injEq, Prod.mk.injEq] at h
    simp only [Bool.and_eq_true] at hd
    obtain ⟨rfl, rfl⟩ := h
    exact ⟨a, b, rfl, hd.1, hd.2, rfl⟩
  · simp at h

theorem skipDash_inv (s rest : List Char) (h : skipDash s = some rest) : s = '-' :: rest := by
  unfold skipDash at h
  split at h
  · split_ifs at h with hc
    simp only [Option.some.injEq] at h
    rw [hc, h]
  · simp at h

theorem digitChar_congr (a b : Nat) (h : a % 10 = b % 10) : digitChar a = digitChar b := by
  unfold digitChar
  rw [h]

theorem pad4_digits (a b c d : Char) (ha : isDigitChar a = true) (hb : isDigitChar b = true)
    (hc : isDigitChar c = true) (hd : isDigitChar d = true) :
    pad4 (digitVal a * 1000 + digitVal b * 100 + digitVal c * 10 + digitVal d) = [a, b, c, d] := by
  obtain ⟨ha1, ha2⟩ := digitChar_digitVal a ha
  obtain ⟨hb1, hb2⟩ := digitChar_digitVal b hb
  obtain ⟨hc1, hc2⟩ := digitChar_digitVal c hc
  obtain ⟨hd1, hd2⟩ := digitChar_digitVal d hd
  unfold pad4
  rw [digitChar_congr _ (digitVal a) (by omega), digitChar_congr (_ / 100) (digitVal b) (by omega),
    digitChar_congr (_ / 10) (digitVal c) (by omega),
    digitChar_congr (_ + digitVal d) (digitVal d) (by omega), ha2, hb2, hc2, hd2]

theorem pad2_digits (a b : Char) (ha : isDigitChar a = true) (hb : isDigitChar b = true) :
    pad2 (digitVal a * 10 + digitVal b) = [a, b] := by
  obtain ⟨ha1, ha2⟩ := digitChar_digitVal a ha
  obtain ⟨hb1, hb2⟩ := digitChar_digitVal b hb
  unfold pad2
  rw [digitChar_congr _ (digitVal a) (by omega),
    digitChar_congr (_ + digitVal b) (digitVal b) (by omega), ha2, hb2]

/-- What the parser accepts is a calendar date, written with its year, month
and day. -/
theorem date_of_timeParseDate (s : List Char) (y m d : Nat)
    (h : timeParseDate s = some (y, m, d)) :
    y ≤ 9999 ∧ 1 ≤ m ∧ m ≤ 12 ∧ 1 ≤ d ∧ d ≤ daysInMonth y m ∧
      s = pad4 y ++ '-' :: (pad2 m ++ '-' :: pad2 d) := by
  unfold timeParseDate at h
  cases hy : getYear4 s with
  | none => simp [hy] at h
  | some r1 =>
    obtain ⟨year, v1⟩ := r1
    simp only [hy] at h
    cases hs1 : skipDash v1 with
    | none => simp [hs1] at h
    | some v2 =>
      simp only [hs1] at h
      cases hm : getnum2 v2 with
      | none => simp [hm] at h
      | some r2 =>
        obtain ⟨month, v3⟩ := r2
        simp only [hm] at h
        split_ifs at h with hmr
        cases hs2 : skipDash v3 with
        | none => simp [hs2] at h
        | some v4 =>
          simp only [hs2] at h
          cases hd : getnum2 v4 with
          | none => simp [hd] at h
          | some r3 =>
            obtain ⟨day, v5⟩ := r3
            simp only [hd] at h
            split_ifs at h with hv5 hdr
            simp only [Option.some.injEq, Prod.mk.injEq] at h
            obtain ⟨rfl, rfl, rfl⟩ := h
            have hv5' : v5 = [] := by simpa using hv5
            subst hv5'
            obtain ⟨a, b, c, d4, rfl, ha, hb, hc, hd4, rfl⟩ := getYear4_inv _ _ _ hy
            obtain ⟨m1, m2, rfl, hm1, hm2, rfl⟩ := getnum2_inv _ _ _ hm
            obtain ⟨d1, d2, rfl, hd1, hd2, rfl⟩ := getnum2_inv _ _ _ hd
            have e1 := skipDash_inv _ _ hs1
            have e2 := skipDash_inv _ _ hs2
            subst e1 e2
            have ba := (digitChar_digitVal a ha).1
            have bb := (digitChar_digitVal b hb).1
            have bc := (digitChar_digitVal c hc).1
            have bd := (digitChar_digitVal d4 hd4).1
            have hmonth : 1 ≤ digitVal m1 * 10 + digitVal m2 ∧
                digitVal m1 * 10 + digitVal m2 ≤ 12 := by omega
            rw [daysIn_eq_daysInMonth _ _ hmonth.1 hmonth.2] at hdr
            refine ⟨by omega, hmonth.1, hmonth.2, by omega, by omega, ?_⟩
            rw [pad4_digits a b c d4 ha hb hc hd4, pad2_digits m1 m2 hm1 hm2,
              pad2_digits d1 d2 hd1 hd2]
            rfl

/-- The conversion of a string on a DATE column. -/
theorem convertValue_date (lib : Lib) (column : TableColumn) (s : String)
    (hdate : isDateType column = true) :
    (IsCalendarDate s →
      convertValue lib column (Value.str s) = Value.str (s ++ "T00:00:00Z")) ∧
    (¬ IsCalendarDate s → convertValue lib column (Value.str s) = Value.str s) := by
  have hT : column.Typ = ColumnType.TYPE_DATE := by simpa [isDateType] using hdate
  have hconv : convertValue lib column (Value.str s) =
      match timeParseDate s.data with
      | some (y, m, d) => Value.str (String.mk (formatRFC3339 y m d))
      | none => Value.str s := by
    delta convertValue
    simp [isTextType, isDateType, hT, sprintfS]
  rw [hconv]
  constructor
  · rintro ⟨y, m, d, hy, hm1, hm12, hd1, hd, hs⟩
    have hd31 := daysInMonth_le y m
    rw [hs, timeParseDate_of_date y m d hy hm1 hm12 hd1 hd]
    simp only []
    rw [formatRFC3339_eq y m d hy (by omega) (by omega), ← hs]
    rfl
  · intro hno
    cases hp : timeParseDate s.data with
    | none => rfl
    | some r =>
      obtain ⟨y, m, d⟩ := r
      exact absurd ⟨y, m, d, date_of_timeParseDate _ _ _ _ hp⟩ hno

/-- C7: for a DATE column and a string value `s`, `rowToMap` yields `s`
followed by `T00:00:00Z` when `s` is a calendar date in the form `YYYY-MM-DD`,
and `s` unchanged when it is not. -/
theorem rowToMap_date_string (lib : Lib) (e : RowsEvent) (row : List Value) (i : Nat)
    (column : TableColumn) (s : String)
    (hcol : e.Table.Columns[i]? = some column) (hdate : isDateType column = true)
    (hval : row[i]? = some (Value.str s))
    (hlen : e.Table.Columns.length ≤ row.length)
    (hnd : (getColumnNames e).Nodup) :
    ∃ m, rowToMap lib e (getColumnNames e) row = some m ∧
      (IsCalendarDate s → m.get? column.Name = some (Value.str (s ++ "T00:00:00Z"))) ∧
      (¬ IsCalendarDate s → m.get? column.Name = some (Value.str s)) := by
  obtain ⟨m, hm, hget⟩ := rowToMap_get lib e row i column _ hcol hval (by simp) hlen hnd
  obtain ⟨h1, h2⟩ := convertValue_date lib column s hdate
  exact ⟨m, hm, fun h => by rw [hget, h1 h], fun h => by rw [hget, h2 h]⟩

theorem isCalendarDate_sample : IsCalendarDate "2023-07-01" :=
  ⟨2023, 7, 1, by decide, by decide, by decide, by decide, by decide, by decide⟩

theorem not_isCalendarDate_sample : ¬ IsCalendarDate "not-a-date" := by
  rintro ⟨y, m, d, hy, hm1, hm12, hd1, hd, hs⟩
  have := timeParseDate_of_date y m d hy hm1 hm12 hd1 hd
  rw [← hs] at this
  have hnone : timeParseDate "not-a-date".data = none := by decide
  rw [hnone] at this
  exact absurd this (by simp)

/-- Witness for C7: the dates of the two sample rows, `2023-07-01` and
`not-a-date`. -/
theorem rowToMap_date_string_witness :
    (∃ m, rowToMap sampleLib sampleInsert (getColumnNames sampleInsert) sampleRow = some m ∧
      m.get? "born" = some (Value.str "2023-07-01T00:00:00Z")) ∧
    (∃ m, rowToMap sampleLib sampleInsert (getColumnNames sampleInsert) sampleRow2 = some m ∧
      m.get? "born" = some (Value.str "not-a-date")) := by
  obtain ⟨m, hm, h1, -⟩ := rowToMap_date_string sampleLib sampleInsert sampleRow 3
    { Name := "born", Typ := ColumnType.TYPE_DATE, RawType := "date" } "2023-07-01" rfl rfl rfl
    (by decide) (by decide)
  obtain ⟨m2, hm2, -, h2⟩ := rowToMap_date_string sampleLib sampleInsert sampleRow2 3
    { Name := "born", Typ := ColumnType.TYPE_DATE, RawType := "date" } "not-a-date" rfl rfl rfl
    (by decide) (by decide)
  exact ⟨⟨m, hm, h1 isCalendarDate_sample⟩, ⟨m2, hm2, h2 not_isCalendarDate_sample⟩⟩

/-- Witness for C4: with both tiers empty, and with both tiers holding texts
that cannot be decoded, the position returned is the empty name with offset 4,
and there is no error. -/
theorem loadPosition_never_fails_witness :
    loadPosition sampleWorld = ({ Name := goString "", Pos := 4 }, none) ∧
    loadPosition sampleWorldUndecodable = ({ Name := goString "", Pos := 4 }, none) :=
  ⟨Prod.ext ((loadPosition_never_fails sampleWorld).2 (fun _ _ h => Option.noConfusion h)
      (fun _ h => Option.noConfusion h)) (loadPosition_never_fails sampleWorld).1,
    by decide⟩

/-! ## The JSON reader does not depend on its fuel -/

theorem length_skipWS (s : List Char) : (skipWS s).length ≤ s.length := by
  induction s with
  | nil => simp [skipWS]
  | cons c cs ih =>
    simp only [skipWS]
    split_ifs
    · simp only [List.length_cons]; omega
    · exact Nat.le_refl _

/-- A round of the reader of a string uses up input. -/
theorem unquoteStep_length (s : List Char) :
    match unquoteStep s with
    | UnquoteStep.fail => True
    | UnquoteStep.done r => r.length < s.length
    | UnquoteStep.emit _ r => r.length < s.length := by
  cases s with
  | nil => simp [unquoteStep]
  | cons c rest =>
    have hd : ∀ n (l : List Char), (List.drop n l).length ≤ l.length := fun n l => by simp
    unfold unquoteStep
    simp only [List.length_cons]
    split_ifs
    · simp
    · cases rest with
      | nil => simp
      | cons x rest2 =>
        have e1 := hd 4 rest2
        have e2 := hd 6 (List.drop 4 rest2)
        simp only [List.length_cons]
        split_ifs
        · cases getu4 (c :: x :: rest2) with
          | none => simp
          | some rr =>
            simp only
            split_ifs
            · cases getu4 (List.drop 4 rest2) with
              | none => simp; omega
              | some rr1 =>
                simp only
                split_ifs
                · simp; omega
                · simp; omega
            · simp; omega
        · cases escapeChar x with
          | none => simp
          | some c1 => simp; omega
    · simp
    · simp

/-- The reader of a string uses up input, and its result does not depend on
the fuel: what some fuel gives, every fuel that covers the characters used up
gives as well. -/
theorem unquoteLoop_fuel : ∀ (g : Nat) (s acc t r : List Char),
    unquoteLoop g s acc = some (t, r) →
      r.length < s.length ∧
        ∀ f, s.length - r.length ≤ f → unquoteLoop f s acc = some (t, r) := by
  intro g
  induction g with
  | zero => intro s acc t r h; simp [unquoteLoop] at h
  | succ g ih =>
    intro s acc t r h
    rw [unquoteLoop] at h
    have hlen := unquoteStep_length s
    cases hstep : unquoteStep s with
    | fail => simp [hstep] at h
    | done rest =>
      simp only [hstep, Option.some.injEq, Prod.mk.injEq] at h
      obtain ⟨rfl, rfl⟩ := h
      have hl : rest.length < s.length := by simpa [hstep] using hlen
      refine ⟨hl, fun f hf => ?_⟩
      obtain ⟨f', rfl⟩ : ∃ f', f = f' + 1 := ⟨f - 1, by omega⟩
      rw [unquoteLoop, hstep]
    | emit c rest =>
      simp only [hstep] at h
      obtain ⟨h1, h2⟩ := ih _ _ _ _ h
      have hl : rest.length < s.length := by simpa [hstep] using hlen
      refine ⟨by omega, fun f hf => ?_⟩
      obtain ⟨f', rfl⟩ : ∃ f', f = f' + 1 := ⟨f - 1, by omega⟩
      rw [unquoteLoop, hstep]
      exact h2 f' (by omega)

theorem unquote_of_fuel (g : Nat) (s t r : List Char) (h : unquoteLoop g s [] = some (t, r)) :
    unquote s = some (t, r) :=
  (unquoteLoop_fuel g s [] t r h).2 _ (by omega)

theorem unquote_length (s t r : List Char) (h : unquote s = some (t, r)) :
    r.length < s.length :=
  (unquoteLoop_fuel _ s [] t r h).1

theorem length_span_snd (p : Char → Bool) (s : List Char) : (s.span p).2.length ≤ s.length := by
  rw [List.span_eq_take_drop]
  exact (List.dropWhile_sublist p).length_le

theorem parseIntPart_length (s ip r : List Char) (h : parseIntPart s = some (ip, r)) :
    r.length < s.length := by
  unfold parseIntPart at h
  cases s with
  | nil => simp at h
  | cons c rest =>
    have := length_span_snd isDigitChar rest
    simp only at h
    split_ifs at h
    · simp only [Option.some.injEq, Prod.mk.injEq] at h
      rw [← h.2]; simp
    · simp only [Option.some.injEq, Prod.mk.injEq] at h
      rw [← h.2]; simp only [List.length_cons]; omega

theorem parseFrac_length (s fp r : List Char) (h : parseFrac s = some (fp, r)) :
    r.length ≤ s.length := by
  unfold parseFrac at h
  cases s with
  | nil => simp at h; rw [← h.2]
  | cons c rest =>
    have := length_span_snd isDigitChar rest
    simp only at h
    split_ifs at h
    · simp only [Option.some.injEq, Prod.mk.injEq] at h
      rw [← h.2]; simp only [List.length_cons]; omega
    · simp only [Option.some.injEq, Prod.mk.injEq] at h
      rw [← h.2]

theorem parseExp_length (s ep r : List Char) (h : parseExp s = some (ep, r)) :
    r.length ≤ s.length := by
  unfold parseExp at h
  cases s with
  | nil => simp at h; rw [← h.2]
  | cons c rest =>
    simp only at h
    split_ifs at h
    · simp only [Option.some.injEq, Prod.mk.injEq] at h
      rw [← h.2]
      cases rest with
      | nil => simp
      | cons x r2 =>
        have h1 := length_span_snd isDigitChar r2
        have h2 := length_span_snd isDigitChar (x :: r2)
        simp only [List.length_cons] at h2 ⊢
        split_ifs <;> simp only <;> omega
    · simp only [Option.some.injEq, Prod.mk.injEq] at h
      rw [← h.2]

theorem parseNumber_signed (sign body lit r : List Char)
    (h : (match parseIntPart body with
      | none => none
      | some (ip, r1) =>
        match parseFrac r1 with
        | none => none
        | some (fp, r2) =>
          match parseExp r2 with
          | none => none
          | some (ep, r3) => some (sign ++ ip ++ fp ++ ep, r3)) = some (lit, r)) :
    r.length < body.length := by
  cases h1 : parseIntPart body with
  | none => simp [h1] at h
  | some p1 =>
    obtain ⟨ip, r1⟩ := p1
    simp only [h1] at h
    cases h2 : parseFrac r1 with
    | none => simp [h2] at h
    | some p2 =>
      obtain ⟨fp, r2⟩ := p2
      simp only [h2] at h
      cases h3 : parseExp r2 with
      | none => simp [h3] at h
      | some p3 =>
        obtain ⟨ep, r3⟩ := p3
        simp only [h3, Option.some.injEq, Prod.mk.injEq] at h
        have e1 := parseIntPart_length _ _ _ h1
        have e2 := parseFrac_length _ _ _ h2
        have e3 := parseExp_length _ _ _ h3
        rw [← h.2]
        omega

theorem parseNumber_length (s lit r : List Char) (h : parseNumber s = some (lit, r)) :
    r.length < s.length := by
  unfold parseNumber at h
  cases s with
  | nil => simp [parseIntPart] at h
  | cons c rest =>
    by_cases hc : c = '-'
    · simp only [hc, if_true] at h
      have := parseNumber_signed _ _ _ _ h
      simp only [List.length_cons]
      omega
    · simp only [hc, if_false] at h
      exact parseNumber_signed _ _ _ _ h

theorem dropLit_length : ∀ (lit s r : List Char), dropLit lit s = some r → r.length ≤ s.length
  | [], s, r, h => by simp [dropLit] at h; rw [h]
  | _ :: _, [], r, h => by simp [dropLit] at h
  | l :: ls, c :: cs, r, h => by
    simp only [dropLit] at h
    split_ifs at h
    have := dropLit_length ls cs r h
    simp only [List.length_cons]
    omega

theorem parseScalar_length (c : Char) (rest : List Char) (v : Json) (r : List Char)
    (h : parseScalar c rest = some (v, r)) : r.length ≤ rest.length := by
  unfold parseScalar at h
  split_ifs at h
  · cases hu : unquote rest with
    | none => simp [hu] at h
    | some p =>
      obtain ⟨t, r'⟩ := p
      simp only [hu, Option.some.injEq, Prod.mk.injEq] at h
      have := unquote_length _ _ _ hu
      rw [← h.2]; omega
  · simp only [Option.map_eq_some', Prod.mk.injEq] at h
    obtain ⟨r', h1, -, rfl⟩ := h
    exact dropLit_length _ _ _ h1
  · simp only [Option.map_eq_some', Prod.mk.injEq] at h
    obtain ⟨r', h1, -, rfl⟩ := h
    exact dropLit_length _ _ _ h1
  · simp only [Option.map_eq_some', Prod.mk.injEq] at h
    obtain ⟨r', h1, -, rfl⟩ := h
    exact dropLit_length _ _ _ h1
  · cases hn : parseNumber (c :: rest) with
    | none => simp [hn] at h
    | some p =>
      obtain ⟨lit, r'⟩ := p
      simp only [hn, Option.some.injEq, Prod.mk.injEq] at h
      have := parseNumber_length _ _ _ hn
      simp only [List.length_cons] at this
      rw [← h.2]; omega

/-- The reader of a value, of the members of an object and of the elements of
an array use up input, and their results do not depend on the fuel: what some
fuel gives, every fuel that covers the characters used up gives as well. -/
theorem parse_fuel : ∀ g : Nat,
    (∀ d s v r, parseValue g d s = some (v, r) →
      r.length < s.length ∧ ∀ f, s.length - r.length ≤ f → parseValue f d s = some (v, r)) ∧
    (∀ d s acc v r, parseMembers g d s acc = some (v, r) →
      r.length < s.length ∧
        ∀ f, s.length - r.length ≤ f → parseMembers f d s acc = some (v, r)) ∧
    (∀ d s acc v r, parseElements g d s acc = some (v, r) →
      r.length < s.length ∧
        ∀ f, s.length - r.length ≤ f → parseElements f d s acc = some (v, r)) := by
  have hb1 : ¬ (('[' : Char) = '\x7b') := by decide
  have hb2 : ¬ (('\x7d' : Char) = ',') := by decide
  have hb3 : ¬ ((']' : Char) = ',') := by decide
  intro g
  induction g with
  | zero =>
    refine ⟨?_, ?_, ?_⟩
    · intro d s v r h; simp [parseValue] at h
    · intro d s acc v r h; simp [parseMembers] at h
    · intro d s acc v r h; simp [parseElements] at h
  | succ g ih =>
    obtain ⟨ihV, ihM, ihE⟩ := ih
    refine ⟨?_, ?_, ?_⟩
    · intro d s v r h
      rw [parseValue] at h
      have hws := length_skipWS s
      cases hs : skipWS s with
      | nil => simp [hs] at h
      | cons c rest =>
        simp only [hs] at h
        rw [hs] at hws
        simp only [List.length_cons] at hws
        have hws2 := length_skipWS rest
        by_cases hobj : c = '\x7b'
        · simp only [hobj, if_true] at h
          by_cases hdep : d + 1 > maxNestingDepth
          · simp [hdep] at h
          · simp only [hdep, if_false] at h
            cases hs2 : skipWS rest with
            | nil => simp [hs2] at h
            | cons c2 rest2 =>
              simp only [hs2] at h
              rw [hs2] at hws2
              simp only [List.length_cons] at hws2
              by_cases hclose : c2 = '\x7d'
              · simp only [hclose, if_true, Option.some.injEq, Prod.mk.injEq] at h
                obtain ⟨rfl, rfl⟩ := h
                refine ⟨by omega, fun f hf => ?_⟩
                obtain ⟨f', rfl⟩ : ∃ f', f = f' + 1 := ⟨f - 1, by omega⟩
                rw [parseValue]
                simp only [hs, hobj, hdep, hs2, hclose, if_true, if_false]
              · simp only [hclose, if_false] at h
                obtain ⟨h1, h2⟩ := ihM _ _ _ _ _ h
                simp only [List.length_cons] at h1 h2
                refine ⟨by omega, fun f hf => ?_⟩
                obtain ⟨f', rfl⟩ : ∃ f', f = f' + 1 := ⟨f - 1, by omega⟩
                rw [parseValue]
                simp only [hs, hobj, hdep, hs2, hclose, if_true, if_false]
                exact h2 f' (by omega)
        · by_cases harr : c = '['
          · simp only [hobj, harr, if_true, if_false] at h
            by_cases hdep : d + 1 > maxNestingDepth
            · simp [hdep] at h
            · simp only [hdep, if_false] at h
              cases hs2 : skipWS rest with
              | nil => simp [hs2] at h
              | cons c2 rest2 =>
                simp only [hs2] at h
                rw [hs2] at hws2
                simp only [List.length_cons] at hws2
                by_cases hclose : c2 = ']'
                · simp only [hclose, if_true, Option.some.injEq, Prod.mk.injEq] at h
                  obtain ⟨rfl, rfl⟩ := h
                  refine ⟨by omega, fun f hf => ?_⟩
                  obtain ⟨f', rfl⟩ : ∃ f', f = f' + 1 := ⟨f - 1, by omega⟩
                  rw [parseValue]
                  simp only [hs, hobj, harr, hb1, hdep, hs2, hclose, if_true, if_false]
                · simp only [hclose, if_false] at h
                  obtain ⟨h1, h2⟩ := ihE _ _ _ _ _ h
                  simp only [List.length_cons] at h1 h2
                  refine ⟨by omega, fun f hf => ?_⟩
                  obtain ⟨f', rfl⟩ : ∃ f', f = f' + 1 := ⟨f - 1, by omega⟩
                  rw [parseValue]
                  simp only [hs, hobj, harr, hb1, hdep, hs2, hclose, if_true, if_false]
                  exact h2 f' (by omega)
          · simp only [hobj, harr, if_false] at h
            have hl := parseScalar_length _ _ _ _ h
            refine ⟨by omega, fun f hf => ?_⟩
            obtain ⟨f', rfl⟩ : ∃ f', f = f' + 1 := ⟨f - 1, by omega⟩
            rw [parseValue]
            simp only [hs, hobj, harr, if_false]
            exact h
    · intro d s acc v r h
      rw [parseMembers] at h
      have hws := length_skipWS s
      cases hs : skipWS s with
      | nil => simp [hs] at h
      | cons c rest =>
        simp only [hs] at h
        rw [hs] at hws
        simp only [List.length_cons] at hws
        by_cases hq : c = '\"'
        · simp only [hq, if_true] at h
          cases hu : unquote rest with
          | none => simp [hu] at h
          | some p =>
            obtain ⟨key, r1⟩ := p
            simp only [hu] at h
            have hl1 := unquote_length _ _ _ hu
            have hws1 := length_skipWS r1
            cases hs1 : skipWS r1 with
            | nil => simp [hs1] at h
            | cons c1 r2 =>
              simp only [hs1] at h
              rw [hs1] at hws1
              simp only [List.length_cons] at hws1
              by_cases hcolon : c1 = ':'
              · simp only [hcolon, if_true] at h
                cases hv : parseValue g d r2 with
                | none => simp [hv] at h
                | some pv =>
                  obtain ⟨v1, r3⟩ := pv
                  simp only [hv] at h
                  obtain ⟨hl3, hf3⟩ := ihV _ _ _ _ hv
                  have hws3 := length_skipWS r3
                  cases hs3 : skipWS r3 with
                  | nil => simp [hs3] at h
                  | cons c3 r4 =>
                    simp only [hs3] at h
                    rw [hs3] at hws3
                    simp only [List.length_cons] at hws3
                    by_cases hcomma : c3 = ','
                    · simp only [hcomma, if_true] at h
                      obtain ⟨h1, h2⟩ := ihM _ _ _ _ _ h
                      refine ⟨by omega, fun f hf => ?_⟩
                      obtain ⟨f', rfl⟩ : ∃ f', f = f' + 1 := ⟨f - 1, by omega⟩
                      rw [parseMembers]
                      simp only [hs, hq, hu, hs1, hcolon, hf3 f' (by omega), hs3, hcomma,
                        if_true]
                      exact h2 f' (by omega)
                    · by_cases hclose : c3 = '\x7d'
                      · simp only [hcomma, hclose, if_true, if_false, Option.some.injEq,
                          Prod.mk.injEq] at h
                        obtain ⟨rfl, rfl⟩ := h
                        refine ⟨by omega, fun f hf => ?_⟩
                        obtain ⟨f', rfl⟩ : ∃ f', f = f' + 1 := ⟨f - 1, by omega⟩
                        rw [parseMembers]
                        simp only [hs, hq, hu, hs1, hcolon, hf3 f' (by omega), hs3, hcomma,
                          hclose, hb2, if_true, if_false]
                      · simp [hcomma, hclose] at h
              · simp [hcolon] at h
        · simp [hq] at h
    · intro d s acc v r h
      rw [parseElements] at h
      cases hv : parseValue g d s with
      | none => simp [hv] at h
      | some pv =>
        obtain ⟨v1, r1⟩ := pv
        simp only [hv] at h
        obtain ⟨hl1, hf1⟩ := ihV _ _ _ _ hv
        have hws1 := length_skipWS r1
        cases hs1 : skipWS r1 with
        | nil => simp [hs1] at h
        | cons c r2 =>
          simp only [hs1] at h
          rw [hs1] at hws1
          simp only [List.length_cons] at hws1
          by_cases hcomma : c = ','
          · simp only [hcomma, if_true] at h
            obtain ⟨h1, h2⟩ := ihE _ _ _ _ _ h
            refine ⟨by omega, fun f hf => ?_⟩
            obtain ⟨f', rfl⟩ : ∃ f', f = f' + 1 := ⟨f - 1, by omega⟩
            rw [parseElements]
            simp only [hf1 f' (by omega), hs1, hcomma, if_true]
            exact h2 f' (by omega)
          · by_cases hclose : c = ']'
            · simp only [hcomma, hclose, if_true, if_false, Option.some.injEq,
                Prod.mk.injEq] at h
              obtain ⟨rfl, rfl⟩ := h
              refine ⟨by omega, fun f hf => ?_⟩
              obtain ⟨f', rfl⟩ : ∃ f', f = f' + 1 := ⟨f - 1, by omega⟩
              rw [parseElements]
              simp only [hf1 f' (by omega), hs1, hcomma, hclose, hb3, if_true, if_false]
            · simp [hcomma, hclose] at h

/-- The fuel that `parseJSON` gives the reader is enough: a value that the
reader finds with any fuel, it finds with that fuel. -/
theorem parseValue_fuel_enough (g : Nat) (data : List Char) (v : Json) (r : List Char)
    (h : parseValue g 0 data = some (v, r)) :
    parseValue (data.length + 1) 0 data = some (v, r) :=
  ((parse_fuel g).1 0 data v r h).2 _ (by omega)

/-- A text that the reader takes as one value with white space around it, with
any fuel, is what `parseJSON` returns. -/
theorem parseJSON_of_fuel (g : Nat) (data : List Char) (v : Json) (r : List Char)
    (h : parseValue g 0 data = some (v, r)) (hr : skipWS r = []) :
    parseJSON data = some v := by
  unfold parseJSON
  rw [parseValue_fuel_enough g data v r h]
  simp [hr]

end CDC
